import Mathlib

/-!
Verification of the lock-free concurrent union-find of disjoint-sets-rs
(src/concurrent.rs), shallowly embedded for sequential executions: every
atomic load and compare-and-swap of the source is one step of the run, and
the state (the boxed slice of atomic entries) is passed explicitly.
Machine words are modeled by Nat, with reduction modulo 2 ^ 64 where the
source's usize arithmetic can wrap.
-/

/-- Decoded view of one packed slot of the union-find: the (id, rank) pair.
Models struct Entry of src/concurrent.rs; both fields are usize values and
stay far below 2 ^ 64 in every reachable state. -/
structure Entry where
  id : Nat
  rk : Nat
deriving DecidableEq

/-- Bits of a packed word reserved for the id field (64-bit platform). -/
def ID_BITS : Nat := 58

/-- Bits of a packed word reserved for the rank field. -/
def RK_BITS : Nat := 64 - ID_BITS

/-- Shift of the rank field inside the packed word. -/
def RK_SHIFT : Nat := 0

/-- Shift of the id field inside the packed word. -/
def ID_SHIFT : Nat := RK_BITS

/-- Mask of the rank field. -/
def RK_MASK : Nat := (1 <<< RK_BITS) - 1

/-- Mask of the id field; the source writes !RK_MASK, the bitwise complement
of RK_MASK inside a 64-bit usize. -/
def ID_MASK : Nat := (2 ^ 64 - 1) ^^^ RK_MASK

/-- Exclusive upper bound of the rank field. -/
def RK_MAX : Nat := 1 <<< RK_BITS

/-- Exclusive upper bound of the id field. -/
def ID_MAX : Nat := 1 <<< ID_BITS

/-- Models impl From for Entry: unpack a 64-bit word into its (id, rank). -/
def entryFromUsize (value : Nat) : Entry :=
  { id := (value &&& ID_MASK) >>> ID_SHIFT, rk := (value &&& RK_MASK) >>> RK_SHIFT }

/-- Models impl From for usize: pack an (id, rank) pair into a single word;
usize shifts and ors stay inside 64 bits, so the result is reduced mod 2 ^ 64. -/
def usizeFromEntry (e : Entry) : Nat :=
  ((e.id <<< ID_SHIFT) ||| (e.rk <<< RK_SHIFT)) % 2 ^ 64

/-- State of AUnionFind: the boxed slice of atomic entries, read at the
decoded (id, rank) level (two in-range entries are equal exactly when their
packed words are, see pack_injective below). -/
abbrev AUF := List Entry

namespace AUnionFind

/-- Atomic load of one slot. Source indexing panics out of bounds; every
operation of a run is invoked in bounds (see Reachable), so the default entry
never matters for the claims. -/
def load (uf : AUF) (element : Nat) : Entry := (uf.get? element).getD ⟨element, 0⟩

/-- Single-word compare-and-swap of one slot, at the decoded level: it
succeeds exactly when the slot still holds the expected entry, and then
installs the new one. -/
def cas (uf : AUF) (index : Nat) (exp nw : Entry) : Bool × AUF :=
  if load uf index = exp then (true, uf.set index nw) else (false, uf)

/-- Parent pointer of a slot: the id field of its current entry. -/
def parent (uf : AUF) (i : Nat) : Nat := (load uf i).id

/-- Models AUnionFind::max_size. -/
def max_size : Nat := ID_MAX

/-- Models AUnionFind::new; a failed capacity assert (size above max_size)
is the none case. -/
def new (size : Nat) : Option AUF :=
  if size ≤ max_size then some ((List.range size).map fun i => ⟨i, 0⟩) else none

/-- Models AUnionFind::len. -/
def len (uf : AUF) : Nat := uf.length

/-- While loop of AUnionFind::find_entry with explicit fuel; par holds the
entry the source's local variable parent holds at the head of the loop. -/
def find_entry_loop : Nat → AUF → Nat → Entry → Entry × AUF
  | 0, uf, _, par => (par, uf)
  | fuel + 1, uf, element, par =>
    if element = par.id then (par, uf)
    else
      let grandparent := load uf par.id
      let uf1 := (cas uf element par grandparent).2
      find_entry_loop fuel uf1 par.id grandparent

/-- Models AUnionFind::find_entry. A fuel of uf.length always suffices on an
in-bounds element of a reachable state (see the fuel-independence part of the
termination theorem). -/
def find_entry (uf : AUF) (element : Nat) : Entry × AUF :=
  find_entry_loop uf.length uf element (load uf element)

/-- Models AUnionFind::find. -/
def find (uf : AUF) (element : Nat) : Nat × AUF :=
  ((find_entry uf element).1.id, (find_entry uf element).2)

/-- Models AUnionFind::increment_rank: the best-effort rank bump of a root
after an equal-rank link; inc_rank keeps the id and adds one to the rank. -/
def increment_rank (uf : AUF) (entry : Entry) : AUF :=
  (cas uf entry.id entry ⟨entry.id, entry.rk + 1⟩).2

/-- Retry loop of AUnionFind::union with explicit fuel: find both roots,
return false when they coincide, otherwise link by rank with a single CAS and
restart from the found roots when that CAS loses. -/
def union_loop : Nat → AUF → Nat → Nat → Bool × AUF
  | 0, uf, _, _ => (false, uf)
  | fuel + 1, uf, a_id, b_id =>
    let fa := find_entry uf a_id
    let fb := find_entry fa.2 b_id
    let a := fa.1
    let b := fb.1
    let uf2 := fb.2
    if a.id = b.id then (false, uf2)
    else if b.rk < a.rk then
      let c := cas uf2 b.id b a
      if c.1 then (true, c.2) else union_loop fuel c.2 a.id b.id
    else if a.rk < b.rk then
      let c := cas uf2 a.id a b
      if c.1 then (true, c.2) else union_loop fuel c.2 a.id b.id
    else
      let c := cas uf2 a.id a b
      if c.1 then (true, increment_rank c.2 b) else union_loop fuel c.2 a.id b.id

/-- Models AUnionFind::union. In a sequential run the first linking CAS
always succeeds, so any positive fuel gives the same result. -/
def union (uf : AUF) (a_id b_id : Nat) : Bool × AUF :=
  union_loop (uf.length + 1) uf a_id b_id

/-- Retry loop of AUnionFind::equiv with explicit fuel. -/
def equiv_loop : Nat → AUF → Nat → Nat → Bool × AUF
  | 0, uf, _, _ => (false, uf)
  | fuel + 1, uf, a, b =>
    let fa := find uf a
    let fb := find fa.2 b
    if fa.1 = fb.1 then (true, fb.2)
    else if (load fb.2 fa.1).id = fa.1 then (false, fb.2)
    else equiv_loop fuel fb.2 fa.1 fb.1

/-- Models AUnionFind::equiv. -/
def equiv (uf : AUF) (a b : Nat) : Bool × AUF := equiv_loop (uf.length + 1) uf a b

/-- Inner loop of AUnionFind::force for one index, with explicit fuel. -/
def force_loop : Nat → AUF → Nat → AUF
  | 0, uf, _ => uf
  | fuel + 1, uf, i =>
    let par := load uf i
    if i = par.id then uf
    else
      let fr := find_entry uf par.id
      if par.id = fr.1.id then fr.2
      else
        let c := cas fr.2 i par fr.1
        if c.1 then c.2 else force_loop fuel c.2 i

/-- Models AUnionFind::force: the for loop over all indices. -/
def force (uf : AUF) : AUF :=
  (List.range uf.length).foldl (fun s i => force_loop (s.length + 1) s i) uf

/-- Models AUnionFind::to_vec: force, then the loaded id of every slot, in
index order, together with the mutated state. -/
def to_vec (uf : AUF) : List Nat × AUF :=
  ((force uf).map Entry.id, force uf)

end AUnionFind

/-!
Generic theory of parent functions on Nat: roots, reachability, absence of
cycles, and the effect of updating the function at one point. The union-find
operations are proved correct against this abstract layer.
-/

/-- Root r of i along f: some iterate of f maps i to r, and r is a fixed
point of f. -/
def RootF (f : Nat → Nat) (i r : Nat) : Prop := (∃ k, f^[k] i = r) ∧ f r = r

theorem rootF_refl (f : Nat → Nat) {r : Nat} (h : f r = r) : RootF f r r :=
  ⟨⟨0, rfl⟩, h⟩

theorem rootF_of_step (f : Nat → Nat) {i r : Nat} (h : RootF f (f i) r) : RootF f i r := by
  obtain ⟨⟨k, hk⟩, hr⟩ := h
  exact ⟨⟨k + 1, by rw [Function.iterate_succ_apply]; exact hk⟩, hr⟩

theorem rootF_step (f : Nat → Nat) {i r : Nat} (h : RootF f i r) : RootF f (f i) r := by
  obtain ⟨⟨k, hk⟩, hr⟩ := h
  cases k with
  | zero => subst hk; exact ⟨⟨0, hr⟩, hr⟩
  | succ k =>
    rw [Function.iterate_succ_apply] at hk
    exact ⟨⟨k, hk⟩, hr⟩

theorem rootF_iterate (f : Nat → Nat) {i r : Nat} (h : RootF f i r) (m : Nat) :
    RootF f (f^[m] i) r := by
  induction m with
  | zero => exact h
  | succ m ih =>
    rw [Function.iterate_succ_apply']
    exact rootF_step f ih

theorem rootF_unique_aux (f : Nat → Nat) {i r r' : Nat} {k k' : Nat} (hle : k ≤ k')
    (hk : f^[k] i = r) (hr : f r = r) (hk' : f^[k'] i = r') : r = r' := by
  have h2 : f^[k' - k] (f^[k] i) = r' := by
    rw [← Function.iterate_add_apply, Nat.sub_add_cancel hle]
    exact hk'
  rw [hk, Function.iterate_fixed hr] at h2
  exact h2

theorem rootF_unique (f : Nat → Nat) {i r r' : Nat} (h : RootF f i r)
    (h' : RootF f i r') : r = r' := by
  obtain ⟨⟨k, hk⟩, hr⟩ := h
  obtain ⟨⟨k', hk'⟩, hr'⟩ := h'
  rcases Nat.le_total k k' with hle | hle
  · exact rootF_unique_aux f hle hk hr hk'
  · exact (rootF_unique_aux f hle hk' hr' hk).symm

theorem rootF_ancestor (f : Nat → Nat) {i t r m : Nat} (hm : f^[m] i = t)
    (h : RootF f t r) : RootF f i r := by
  obtain ⟨⟨k, hk⟩, hr⟩ := h
  refine ⟨⟨k + m, ?_⟩, hr⟩
  rw [Function.iterate_add_apply, hm]
  exact hk

/-- Any cycle through an element with a root must be the root's self loop. -/
theorem rootF_no_cycle (f : Nat → Nat) {i r m : Nat} (h : RootF f i r)
    (hm : f^[m] i = i) (hm0 : 0 < m) : i = r := by
  obtain ⟨⟨k, hk⟩, hr⟩ := h
  have hper : ∀ j, f^[m * j] i = i := by
    intro j
    induction j with
    | zero => rfl
    | succ j ih => rw [Nat.mul_succ, Function.iterate_add_apply, hm, ih]
  have hle : k ≤ m * k := Nat.le_mul_of_pos_left k hm0
  have h2 : f^[m * k - k] (f^[k] i) = i := by
    rw [← Function.iterate_add_apply, Nat.sub_add_cancel hle]
    exact hper k
  rw [hk, Function.iterate_fixed hr] at h2
  exact h2.symm

theorem iterate_period (f : Nat → Nat) {i j l m : Nat} (hjl : j ≤ l)
    (heq : f^[j] i = f^[l] i) (hm : j ≤ m) : f^[m + (l - j)] i = f^[m] i := by
  have h1 : m + (l - j) = (m - j) + l := by omega
  have h2 : (m - j) + j = m := by omega
  calc f^[m + (l - j)] i = f^[(m - j) + l] i := by rw [h1]
    _ = f^[m - j] (f^[l] i) := Function.iterate_add_apply f (m - j) l i
    _ = f^[m - j] (f^[j] i) := by rw [heq]
    _ = f^[(m - j) + j] i := (Function.iterate_add_apply f (m - j) j i).symm
    _ = f^[m] i := by rw [h2]

/-- If all iterates of i stay below n and i has a root, the root is reached
in fewer than n steps (the minimal chain visits pairwise distinct elements). -/
theorem rootF_reach_lt (f : Nat → Nat) {n i r : Nat} (hb : ∀ j, f^[j] i < n)
    (h : RootF f i r) : ∃ k, k < n ∧ f^[k] i = r := by
  obtain ⟨⟨k0, hk0⟩, hr⟩ := h
  have hex : ∃ k, f (f^[k] i) = f^[k] i := ⟨k0, by rw [hk0]; exact hr⟩
  set K := Nat.find hex with hKdef
  have hPK : f (f^[K] i) = f^[K] i := Nat.find_spec hex
  have hmin : ∀ j, j < K → f (f^[j] i) ≠ f^[j] i := fun j hj => Nat.find_min hex hj
  have hKn : K < n := by
    by_contra hc
    push_neg at hc
    obtain ⟨j, hj, l, hl, hjl, heq⟩ :=
      Finset.exists_ne_map_eq_of_card_lt_of_maps_to
        (s := Finset.range (n + 1)) (t := Finset.range n)
        (by simp) (f := fun j => f^[j] i) (fun a _ => Finset.mem_range.mpr (hb a))
    rw [Finset.mem_range] at hj hl
    obtain ⟨jm, lm, hjlm, hlm, heqm⟩ :
        ∃ jm lm, jm < lm ∧ lm < n + 1 ∧ f^[jm] i = f^[lm] i := by
      rcases Nat.lt_or_ge j l with hlt | hge
      · exact ⟨j, l, hlt, hl, heq⟩
      · exact ⟨l, j, Nat.lt_of_le_of_ne hge (fun h => hjl h.symm), hj, heq.symm⟩
    have hKd : f^[(K - (lm - jm)) + (lm - jm)] i = f^[K - (lm - jm)] i :=
      iterate_period f (le_of_lt hjlm) heqm (by omega)
    have h3 : (K - (lm - jm)) + (lm - jm) = K := by omega
    rw [h3] at hKd
    exact hmin (K - (lm - jm)) (by omega) (by rw [← hKd]; exact hPK)
  refine ⟨K, hKn, ?_⟩
  exact rootF_unique f ⟨⟨K, rfl⟩, hPK⟩ ⟨⟨k0, hk0⟩, hr⟩

/-- Pointwise update of a parent function: the effect on the id fields of one
successful CAS on slot x installing an entry whose id is t. -/
def fupd (f : Nat → Nat) (x t : Nat) : Nat → Nat := fun j => if j = x then t else f j

theorem fupd_self (f : Nat → Nat) (x t : Nat) : fupd f x t x = t := if_pos rfl

theorem fupd_ne (f : Nat → Nat) (x t : Nat) {j : Nat} (h : j ≠ x) :
    fupd f x t j = f j := if_neg h

/-- Chains that avoid the updated slot are unchanged. -/
theorem iterate_fupd_avoid (f : Nat → Nat) (x t : Nat) :
    ∀ {k i : Nat}, (∀ j, j < k → f^[j] i ≠ x) → (fupd f x t)^[k] i = f^[k] i := by
  intro k
  induction k with
  | zero => intro i _; rfl
  | succ k ih =>
    intro i h
    rw [Function.iterate_succ_apply, Function.iterate_succ_apply]
    have hi : i ≠ x := h 0 (Nat.succ_pos k)
    rw [fupd_ne f x t hi]
    exact ih (fun j hj => by
      have h2 := h (j + 1) (Nat.succ_lt_succ hj)
      rwa [Function.iterate_succ_apply] at h2)

/-- Updating a non-root slot to point at one of its own strict ancestors
(path halving, forcing) never changes any root. -/
theorem rootF_fupd_ancestor_mpr (f : Nat → Nat) {x t : Nat} (hx : f x ≠ x) (htx : t ≠ x)
    {m0 : Nat} (hanc : f^[m0] x = t) :
    ∀ k i r, f^[k] i = r → f r = r → RootF (fupd f x t) i r := by
  intro k
  induction k using Nat.strong_induction_on with
  | _ k ih =>
    intro i r hk hr
    by_cases hix : x = i
    · subst hix
      have hm0 : 0 < m0 := by
        rcases Nat.eq_zero_or_pos m0 with h0 | h
        · subst h0
          rw [Function.iterate_zero_apply] at hanc
          exact absurd hanc.symm htx
        · exact h
      rcases Nat.le_total m0 k with hle | hle
      · have h2 : f^[k - m0] t = r := by
          rw [← hanc, ← Function.iterate_add_apply, Nat.sub_add_cancel hle]
          exact hk
        have hlt : k - m0 < k := by omega
        have h3 := ih (k - m0) hlt t r h2 hr
        have h4 : RootF (fupd f x t) (fupd f x t x) r := by rw [fupd_self]; exact h3
        exact rootF_of_step _ h4
      · have h2 : t = r := by
          rw [← hanc, ← Nat.sub_add_cancel hle, Function.iterate_add_apply, hk]
          exact Function.iterate_fixed hr (m0 - k)
        subst h2
        refine ⟨⟨1, ?_⟩, ?_⟩
        · rw [Function.iterate_one]
          exact fupd_self f x t
        · rw [fupd_ne f x t htx]
          exact hr
    · have hix' : i ≠ x := fun h => hix h.symm
      cases k with
      | zero =>
        rw [Function.iterate_zero_apply] at hk
        subst hk
        exact ⟨⟨0, rfl⟩, by rw [fupd_ne f x t hix']; exact hr⟩
      | succ k =>
        rw [Function.iterate_succ_apply] at hk
        have h3 := ih k (Nat.lt_succ_self k) (f i) r hk hr
        have h4 : RootF (fupd f x t) (fupd f x t i) r := by
          rw [fupd_ne f x t hix']; exact h3
        exact rootF_of_step _ h4

theorem rootF_fupd_ancestor_mp (f : Nat → Nat) {x t : Nat} (hx : f x ≠ x) (htx : t ≠ x)
    {m0 : Nat} (hanc : f^[m0] x = t) :
    ∀ k i r, (fupd f x t)^[k] i = r → fupd f x t r = r → RootF f i r := by
  intro k
  induction k with
  | zero =>
    intro i r hk hr
    rw [Function.iterate_zero_apply] at hk
    subst hk
    have hrx : i ≠ x := by
      intro h
      rw [h, fupd_self] at hr
      exact htx hr
    rw [fupd_ne f x t hrx] at hr
    exact rootF_refl f hr
  | succ k ih =>
    intro i r hk hr
    rw [Function.iterate_succ_apply] at hk
    by_cases hix : x = i
    · subst hix
      rw [fupd_self] at hk
      exact rootF_ancestor f hanc (ih t r hk hr)
    · rw [fupd_ne f x t (fun h => hix h.symm)] at hk
      exact rootF_of_step f (ih (f i) r hk hr)

/-- Halving / forcing update: pointing a non-root slot at a strict ancestor
leaves the root of every element unchanged. -/
theorem rootF_fupd_ancestor (f : Nat → Nat) {x t : Nat} (hx : f x ≠ x) (htx : t ≠ x)
    (hanc : ∃ m, f^[m] x = t) (i r : Nat) :
    RootF (fupd f x t) i r ↔ RootF f i r := by
  obtain ⟨m0, hanc⟩ := hanc
  constructor
  · rintro ⟨⟨k, hk⟩, hr⟩
    exact rootF_fupd_ancestor_mp f hx htx hanc k i r hk hr
  · rintro ⟨⟨k, hk⟩, hr⟩
    exact rootF_fupd_ancestor_mpr f hx htx hanc k i r hk hr

theorem rootF_fupd_link_mp (f : Nat → Nat) {x t : Nat} (hx : f x = x) (ht : f t = t)
    (hxt : x ≠ t) :
    ∀ k i r, (fupd f x t)^[k] i = r → fupd f x t r = r →
      (RootF f i r ∧ r ≠ x) ∨ (RootF f i x ∧ r = t) := by
  intro k
  induction k with
  | zero =>
    intro i r hk hr
    rw [Function.iterate_zero_apply] at hk
    subst hk
    have hrx : i ≠ x := by
      intro h
      rw [h, fupd_self] at hr
      exact hxt hr.symm
    rw [fupd_ne f x t hrx] at hr
    exact Or.inl ⟨rootF_refl f hr, hrx⟩
  | succ k ih =>
    intro i r hk hr
    rw [Function.iterate_succ_apply] at hk
    by_cases hix : x = i
    · subst hix
      rw [fupd_self] at hk
      rcases ih t r hk hr with ⟨htr, hne⟩ | ⟨htx2, heq⟩
      · have h5 : t = r := rootF_unique f (rootF_refl f ht) htr
        subst h5
        exact Or.inr ⟨rootF_refl f hx, rfl⟩
      · exact absurd (rootF_unique f (rootF_refl f ht) htx2) hxt.symm
    · rw [fupd_ne f x t (fun h => hix h.symm)] at hk
      rcases ih (f i) r hk hr with ⟨hir, hne⟩ | ⟨hix2, heq⟩
      · exact Or.inl ⟨rootF_of_step f hir, hne⟩
      · exact Or.inr ⟨rootF_of_step f hix2, heq⟩

theorem rootF_fupd_link_keep (f : Nat → Nat) {x t : Nat} (hx : f x = x)
    (hxt : x ≠ t) :
    ∀ k i r, f^[k] i = r → f r = r → r ≠ x → RootF (fupd f x t) i r := by
  intro k
  induction k with
  | zero =>
    intro i r hk hr hrx
    subst hk
    exact ⟨⟨0, rfl⟩, by rw [fupd_ne f x t hrx]; exact hr⟩
  | succ k ih =>
    intro i r hk hr hrx
    have hix : i ≠ x := by
      intro h
      subst h
      rw [Function.iterate_fixed hx (k + 1)] at hk
      exact hrx hk.symm
    rw [Function.iterate_succ_apply] at hk
    have h3 := ih (f i) r hk hr hrx
    have h4 : RootF (fupd f x t) (fupd f x t i) r := by
      rw [fupd_ne f x t hix]; exact h3
    exact rootF_of_step _ h4

theorem rootF_fupd_link_move (f : Nat → Nat) {x t : Nat} (hx : f x = x) (ht : f t = t)
    (hxt : x ≠ t) :
    ∀ k i, f^[k] i = x → RootF (fupd f x t) i t := by
  have hbase : RootF (fupd f x t) x t := by
    refine ⟨⟨1, ?_⟩, ?_⟩
    · simp [fupd_self]
    · rw [fupd_ne f x t (fun h => hxt h.symm)]; exact ht
  intro k
  induction k with
  | zero =>
    intro i hk
    subst hk
    exact hbase
  | succ k ih =>
    intro i hk
    by_cases hix : i = x
    · subst hix
      exact hbase
    · rw [Function.iterate_succ_apply] at hk
      have h3 := ih (f i) hk
      have h4 : RootF (fupd f x t) (fupd f x t i) t := by
        rw [fupd_ne f x t hix]; exact h3
      exact rootF_of_step _ h4

/-- Linking update of union: pointing root x at root t merges the class of x
into the class of t and leaves every other class untouched. -/
theorem rootF_fupd_link (f : Nat → Nat) {x t : Nat} (hx : f x = x) (ht : f t = t)
    (hxt : x ≠ t) (i r : Nat) :
    RootF (fupd f x t) i r ↔ (RootF f i r ∧ r ≠ x) ∨ (RootF f i x ∧ r = t) := by
  constructor
  · rintro ⟨⟨k, hk⟩, hr⟩
    exact rootF_fupd_link_mp f hx ht hxt k i r hk hr
  · rintro (⟨⟨⟨k, hk⟩, hfr⟩, hne⟩ | ⟨⟨⟨k, hk⟩, _⟩, rfl⟩)
    · exact rootF_fupd_link_keep f hx hxt k i r hk hfr hne
    · exact rootF_fupd_link_move f hx ht hxt k i hk

namespace AUnionFind

theorem load_set (uf : AUF) (x : Nat) (e : Entry) (j : Nat) :
    load (uf.set x e) j = if x = j ∧ x < uf.length then e else load uf j := by
  unfold load
  rw [List.get?_set]
  by_cases hxj : x = j
  · subst hxj
    by_cases hx : x < uf.length
    · rw [if_pos rfl, if_pos ⟨rfl, hx⟩, List.get?_eq_get hx]
      rfl
    · rw [if_pos rfl, if_neg (fun hc => hx hc.2), List.get?_eq_none.mpr (le_of_not_lt hx)]
      rfl
  · rw [if_neg hxj, if_neg (fun hc => hxj hc.1)]

theorem length_set (uf : AUF) (x : Nat) (e : Entry) :
    (uf.set x e).length = uf.length := List.length_set uf x e

/-- Effect of a successful in-bounds CAS on the parent function. -/
theorem parent_set (uf : AUF) {x : Nat} (hx : x < uf.length) (e : Entry) :
    parent (uf.set x e) = fupd (parent uf) x e.id := by
  funext j
  unfold parent fupd
  rw [load_set]
  by_cases h : x = j
  · subst h
    rw [if_pos ⟨rfl, hx⟩, if_pos rfl]
  · rw [if_neg (fun hc => h hc.1), if_neg (fun hc => h hc.symm)]

/-- A store that does not change the id field does not change the parent
function (rank-only updates). -/
theorem parent_set_id (uf : AUF) {x : Nat} (e : Entry) (h : e.id = parent uf x) :
    parent (uf.set x e) = parent uf := by
  funext j
  unfold parent
  rw [load_set]
  by_cases hxj : x = j ∧ x < uf.length
  · rw [if_pos hxj]
    rw [h]
    unfold parent
    rw [hxj.1]
  · rw [if_neg hxj]

theorem cas_success {uf : AUF} {i : Nat} {exp nw : Entry} (h : load uf i = exp) :
    cas uf i exp nw = (true, uf.set i nw) := by
  unfold cas
  rw [if_pos h]

/-- Root of an element of a state: reached by iterating the parent function
and a fixed point of it. -/
def RootP (uf : AUF) (i r : Nat) : Prop := RootF (parent uf) i r

/-- Two elements lie in the same set when they share a root. -/
def SameSet (uf : AUF) (i j : Nat) : Prop := ∃ r, RootP uf i r ∧ RootP uf j r

/-- State invariant: every in-bounds slot points inside the array and
reaches a root within length steps. It holds in every reachable state. -/
def Inv (uf : AUF) : Prop :=
  ∀ i, i < uf.length → parent uf i < uf.length ∧
    parent uf ((parent uf)^[uf.length] i) = (parent uf)^[uf.length] i

instance (uf : AUF) : Decidable (Inv uf) := by
  unfold Inv
  infer_instance

theorem Inv.parent_lt {uf : AUF} (h : Inv uf) {i : Nat} (hi : i < uf.length) :
    parent uf i < uf.length := (h i hi).1

theorem Inv.iterate_lt {uf : AUF} (h : Inv uf) {i : Nat} (hi : i < uf.length) (k : Nat) :
    (parent uf)^[k] i < uf.length := by
  induction k with
  | zero => exact hi
  | succ k ih =>
    rw [Function.iterate_succ_apply']
    exact h.parent_lt ih

theorem Inv.exists_root {uf : AUF} (h : Inv uf) {i : Nat} (hi : i < uf.length) :
    ∃ r, RootP uf i r :=
  ⟨(parent uf)^[uf.length] i, ⟨uf.length, rfl⟩, (h i hi).2⟩

theorem Inv.root_lt {uf : AUF} (h : Inv uf) {i r : Nat} (hi : i < uf.length)
    (hr : RootP uf i r) : r < uf.length := by
  obtain ⟨⟨k, hk⟩, _⟩ := hr
  rw [← hk]
  exact h.iterate_lt hi k

/-- Rebuilding the invariant from pointwise range plus existence of roots. -/
theorem inv_of_exists {uf : AUF}
    (hlt : ∀ i, i < uf.length → parent uf i < uf.length)
    (hex : ∀ i, i < uf.length → ∃ r, RootP uf i r) : Inv uf := by
  intro i hi
  refine ⟨hlt i hi, ?_⟩
  obtain ⟨r, hr⟩ := hex i hi
  have hb : ∀ j, (parent uf)^[j] i < uf.length := by
    intro j
    induction j with
    | zero => exact hi
    | succ j ih =>
      rw [Function.iterate_succ_apply']
      exact hlt _ ih
  obtain ⟨k, hkn, hk⟩ := rootF_reach_lt (parent uf) hb hr
  have hn : (parent uf)^[uf.length] i = r := by
    rw [← Nat.sub_add_cancel (le_of_lt hkn), Function.iterate_add_apply, hk]
    exact Function.iterate_fixed hr.2 (uf.length - k)
  rw [hn]
  exact hr.2

theorem rootP_congr {uf uf' : AUF} (h : parent uf' = parent uf) (i r : Nat) :
    RootP uf' i r ↔ RootP uf i r := by
  unfold RootP
  rw [h]

/-- States reachable by a sequential run: the result of new, then any
sequence of the public operations on in-bounds elements (out-of-bounds
arguments panic in the source, so no resulting state exists for them). -/
inductive Reachable : AUF → Prop where
  | base : ∀ (n : Nat) (uf : AUF), new n = some uf → Reachable uf
  | step_union : ∀ {uf : AUF} (a b : Nat), Reachable uf → a < uf.length →
      b < uf.length → Reachable (union uf a b).2
  | step_find : ∀ {uf : AUF} (a : Nat), Reachable uf → a < uf.length →
      Reachable (find uf a).2
  | step_equiv : ∀ {uf : AUF} (a b : Nat), Reachable uf → a < uf.length →
      b < uf.length → Reachable (equiv uf a b).2
  | step_force : ∀ {uf : AUF}, Reachable uf → Reachable (force uf)
  | step_to_vec : ∀ {uf : AUF}, Reachable uf → Reachable (to_vec uf).2

theorem find_entry_loop_exit (uf : AUF) (element : Nat) (fuel : Nat)
    (hr : element = (load uf element).id) :
    find_entry_loop fuel uf element (load uf element) = (load uf element, uf) := by
  cases fuel with
  | zero => rfl
  | succ fuel =>
    simp only [find_entry_loop]
    rw [if_pos hr]

theorem find_entry_loop_step (uf : AUF) (element : Nat) (fuel : Nat)
    (hnr : ¬ element = (load uf element).id) :
    find_entry_loop (fuel + 1) uf element (load uf element) =
      find_entry_loop fuel (uf.set element (load uf (parent uf element)))
        (parent uf element) (load uf (parent uf element)) := by
  simp only [find_entry_loop]
  rw [if_neg hnr, cas_success rfl]
  rfl

/-- Postcondition of one find_entry run from element whose root is r: the
returned entry is the current content of the root slot, nothing moved to a
different set, lengths are kept, only non-root strict ancestors of element
were rewritten, and slots already pointing at a root keep their parent. -/
def FindPost (uf : AUF) (element r : Nat) (res : Entry × AUF) : Prop :=
  res.1 = load res.2 r ∧
  res.1.id = r ∧
  res.2.length = uf.length ∧
  Inv res.2 ∧
  (∀ i s, RootP res.2 i s ↔ RootP uf i s) ∧
  (∀ j, load res.2 j ≠ load uf j → (∃ m, (parent uf)^[m] element = j) ∧ parent uf j ≠ j) ∧
  (∀ j, parent uf (parent uf j) = parent uf j → parent res.2 j = parent uf j)

theorem find_loop_spec :
    ∀ k fuel : Nat, ∀ uf : AUF, ∀ element r : Nat, Inv uf → element < uf.length →
      (parent uf)^[k] element = r → parent uf r = r → k ≤ fuel →
      FindPost uf element r (find_entry_loop fuel uf element (load uf element)) ∧
      find_entry_loop fuel uf element (load uf element) =
        find_entry_loop k uf element (load uf element) := by
  intro k
  induction k with
  | zero =>
    intro fuel uf element r hinv hel hk hroot _
    rw [Function.iterate_zero_apply] at hk
    subst hk
    have hre : element = (load uf element).id := hroot.symm
    rw [find_entry_loop_exit uf element fuel hre, find_entry_loop_exit uf element 0 hre]
    exact ⟨⟨rfl, hroot, rfl, hinv, fun i s => Iff.rfl,
      fun j hj => absurd rfl hj, fun j _ => rfl⟩, rfl⟩
  | succ k ih =>
    intro fuel uf element r hinv hel hk hroot hfuel
    by_cases hre : element = (load uf element).id
    · have hfix : parent uf element = element := hre.symm
      have hr2 : element = r := by
        rw [← hk]
        exact (Function.iterate_fixed hfix (k + 1)).symm
      subst hr2
      rw [find_entry_loop_exit uf element fuel hre, find_entry_loop_exit uf element (k + 1) hre]
      exact ⟨⟨rfl, hfix, rfl, hinv, fun i s => Iff.rfl,
        fun j hj => absurd rfl hj, fun j _ => rfl⟩, rfl⟩
    · cases fuel with
      | zero => omega
      | succ fuel =>
        have hfx : parent uf element ≠ element := fun h => hre h.symm
        have hfe : parent uf element < uf.length := hinv.parent_lt hel
        have hRoot : RootF (parent uf) element r := ⟨⟨k + 1, hk⟩, hroot⟩
        have hner : element ≠ r := fun h => hfx (by rw [h]; exact hroot)
        have h2it : (parent uf)^[2] element = parent uf (parent uf element) := by
          rw [Function.iterate_succ_apply', Function.iterate_one]
        have htne : parent uf (parent uf element) ≠ element := by
          intro h
          have hcyc : (parent uf)^[2] element = element := by rw [h2it]; exact h
          exact hner (rootF_no_cycle (parent uf) hRoot hcyc (by omega))
        have havoid : ∀ j, (parent uf)^[j] (parent uf element) ≠ element := by
          intro j h
          have hcyc : (parent uf)^[j + 1] element = element := by
            rw [Function.iterate_succ_apply]
            exact h
          exact hner (rootF_no_cycle (parent uf) hRoot hcyc (Nat.succ_pos j))
        have hgp : load (uf.set element (load uf (parent uf element))) (parent uf element) =
            load uf (parent uf element) := by
          rw [load_set, if_neg (fun hc => hfx hc.1.symm)]
        have hpar1 : parent (uf.set element (load uf (parent uf element))) =
            fupd (parent uf) element (parent uf (parent uf element)) := by
          rw [parent_set uf hel]
          rfl
        have hE1 : ∀ i s, RootF (fupd (parent uf) element (parent uf (parent uf element))) i s
            ↔ RootF (parent uf) i s :=
          fun i s => rootF_fupd_ancestor (parent uf) hfx htne ⟨2, h2it⟩ i s
        have hlen1 : (uf.set element (load uf (parent uf element))).length = uf.length :=
          length_set uf element (load uf (parent uf element))
        have hiff1 : ∀ i s, RootP (uf.set element (load uf (parent uf element))) i s ↔
            RootP uf i s := by
          intro i s
          unfold RootP
          rw [hpar1]
          exact hE1 i s
        have hinv1 : Inv (uf.set element (load uf (parent uf element))) := by
          apply inv_of_exists
          · intro j hj
            rw [hlen1] at hj
            rw [hlen1, hpar1]
            unfold fupd
            by_cases hje : j = element
            · rw [if_pos hje]
              exact hinv.parent_lt hfe
            · rw [if_neg hje]
              exact hinv.parent_lt hj
          · intro j hj
            rw [hlen1] at hj
            obtain ⟨s, hs⟩ := hinv.exists_root hj
            exact ⟨s, (hiff1 j s).mpr hs⟩
        have hchain1 : (parent (uf.set element (load uf (parent uf element))))^[k]
            (parent uf element) = r := by
          rw [hpar1,
            iterate_fupd_avoid (parent uf) element (parent uf (parent uf element))
              (fun j _ => havoid j),
            ← Function.iterate_succ_apply]
          exact hk
        have hroot1 : parent (uf.set element (load uf (parent uf element))) r = r := by
          rw [hpar1, fupd_ne _ _ _ (fun h => hner h.symm)]
          exact hroot
        have hel1 : parent uf element < (uf.set element (load uf (parent uf element))).length := by
          rw [hlen1]
          exact hfe
        obtain ⟨hpost, hcan⟩ := ih fuel (uf.set element (load uf (parent uf element)))
          (parent uf element) r hinv1 hel1 hchain1 hroot1 (by omega)
        obtain ⟨hp1, hp2, hp3, hp4, hp5, hp6, hp7⟩ := hpost
        rw [hgp] at hp1 hp2 hp3 hp4 hp5 hp6 hp7 hcan
        rw [find_entry_loop_step uf element fuel hre, find_entry_loop_step uf element k hre]
        refine ⟨⟨hp1, hp2, by rw [hp3, hlen1], hp4,
          fun i s => (hp5 i s).trans (hiff1 i s), ?_, ?_⟩, hcan⟩
        · intro j hj
          by_cases hj1 : load (uf.set element (load uf (parent uf element))) j = load uf j
          · have hj2 : load (find_entry_loop fuel (uf.set element (load uf (parent uf element)))
                (parent uf element) (load uf (parent uf element))).2 j ≠
                load (uf.set element (load uf (parent uf element))) j := by
              rw [hj1]
              exact hj
            obtain ⟨⟨m, hm⟩, hnr1⟩ := hp6 j hj2
            rw [hpar1] at hm hnr1
            rw [iterate_fupd_avoid (parent uf) element (parent uf (parent uf element))
              (fun j2 _ => havoid j2)] at hm
            refine ⟨⟨m + 1, ?_⟩, ?_⟩
            · rw [Function.iterate_succ_apply]
              exact hm
            · by_cases hje : j = element
              · rw [hje]
                exact hfx
              · rw [fupd_ne _ _ _ hje] at hnr1
                exact hnr1
          · have hje : j = element := by
              by_contra hc
              apply hj1
              rw [load_set, if_neg (fun hcc => hc hcc.1.symm)]
            refine ⟨⟨0, ?_⟩, ?_⟩
            · rw [Function.iterate_zero_apply]
              exact hje.symm
            · rw [hje]
              exact hfx
        · intro j hcomp
          have hcomp2 : parent (uf.set element (load uf (parent uf element))) j = parent uf j := by
            rw [hpar1]
            by_cases hje : j = element
            · rw [hje] at hcomp ⊢
              rw [fupd_self]
              exact hcomp
            · rw [fupd_ne _ _ _ hje]
          have hcomp1 : parent (uf.set element (load uf (parent uf element)))
              (parent (uf.set element (load uf (parent uf element))) j) =
              parent (uf.set element (load uf (parent uf element))) j := by
            rw [hcomp2, hpar1]
            have hpje : parent uf j ≠ element := by
              intro h
              apply hfx
              rw [← h]
              exact hcomp
            rw [fupd_ne _ _ _ hpje]
            exact hcomp
          have h4 := hp7 j hcomp1
          rw [hcomp2] at h4
          exact h4

theorem find_entry_spec {uf : AUF} {element r : Nat} (hinv : Inv uf)
    (hel : element < uf.length) (hr : RootP uf element r) :
    FindPost uf element r (find_entry uf element) := by
  obtain ⟨k, hkn, hk⟩ := rootF_reach_lt (parent uf) (fun j => hinv.iterate_lt hel j) hr
  exact (find_loop_spec k uf.length uf element r hinv hel hk hr.2 (le_of_lt hkn)).1

/-- Termination content of find_entry: on a reachable state the while loop
exits on its own, so any fuel of at least uf.length gives the same run. -/
theorem find_entry_loop_fuel {uf : AUF} {element r : Nat} (hinv : Inv uf)
    (hel : element < uf.length) (hr : RootP uf element r) {fuel : Nat}
    (hfuel : uf.length ≤ fuel) :
    find_entry_loop fuel uf element (load uf element) = find_entry uf element := by
  obtain ⟨k, hkn, hk⟩ := rootF_reach_lt (parent uf) (fun j => hinv.iterate_lt hel j) hr
  have h1 := (find_loop_spec k fuel uf element r hinv hel hk hr.2 (by omega)).2
  have h2 := (find_loop_spec k uf.length uf element r hinv hel hk hr.2 (le_of_lt hkn)).2
  rw [h1]
  exact h2.symm

theorem inv_congr {uf uf' : AUF} (hp : parent uf' = parent uf)
    (hl : uf'.length = uf.length) : Inv uf' ↔ Inv uf := by
  unfold Inv
  rw [hp, hl]

theorem sameSet_congr {uf uf' : AUF} (hp : parent uf' = parent uf) (i j : Nat) :
    SameSet uf' i j ↔ SameSet uf i j := by
  unfold SameSet RootP
  rw [hp]

theorem sameSet_root_right {uf : AUF} {a ra : Nat} (hra : RootP uf a ra) (i : Nat) :
    SameSet uf i a ↔ RootP uf i ra := by
  constructor
  · rintro ⟨s, hi, hs⟩
    rwa [rootF_unique (parent uf) hs hra] at hi
  · intro h
    exact ⟨ra, h, hra⟩

end AUnionFind

/-- Merging two root classes: the same-set relation after pointing root x at
root t is the old one extended by joining the classes of x and t. -/
theorem fupd_link_sameSetF (f : Nat → Nat) {x t : Nat} (hx : f x = x) (ht : f t = t)
    (hxt : x ≠ t) (i j : Nat) :
    (∃ r, RootF (fupd f x t) i r ∧ RootF (fupd f x t) j r) ↔
      ((∃ r, RootF f i r ∧ RootF f j r) ∨
        (RootF f i x ∧ RootF f j t) ∨ (RootF f i t ∧ RootF f j x)) := by
  constructor
  · rintro ⟨r, hi, hj⟩
    rw [rootF_fupd_link f hx ht hxt] at hi hj
    rcases hi with ⟨hi, hir⟩ | ⟨hix, rfl⟩
    · rcases hj with ⟨hj, hjr⟩ | ⟨hjx, rfl⟩
      · exact Or.inl ⟨r, hi, hj⟩
      · exact Or.inr (Or.inr ⟨hi, hjx⟩)
    · rcases hj with ⟨hj, hjr⟩ | ⟨hjx, hrt⟩
      · exact Or.inr (Or.inl ⟨hix, hj⟩)
      · exact Or.inl ⟨x, hix, hjx⟩
  · rintro (⟨r, hi, hj⟩ | ⟨hi, hj⟩ | ⟨hi, hj⟩)
    · by_cases hrx : r = x
      · subst hrx
        refine ⟨t, ?_, ?_⟩
        · obtain ⟨⟨k, hk⟩, _⟩ := hi
          exact rootF_fupd_link_move f hx ht hxt k i hk
        · obtain ⟨⟨k, hk⟩, _⟩ := hj
          exact rootF_fupd_link_move f hx ht hxt k j hk
      · refine ⟨r, ?_, ?_⟩
        · obtain ⟨⟨k, hk⟩, hfr⟩ := hi
          exact rootF_fupd_link_keep f hx hxt k i r hk hfr hrx
        · obtain ⟨⟨k, hk⟩, hfr⟩ := hj
          exact rootF_fupd_link_keep f hx hxt k j r hk hfr hrx
    · refine ⟨t, ?_, ?_⟩
      · obtain ⟨⟨k, hk⟩, _⟩ := hi
        exact rootF_fupd_link_move f hx ht hxt k i hk
      · obtain ⟨⟨k, hk⟩, hfr⟩ := hj
        exact rootF_fupd_link_keep f hx hxt k j t hk hfr (fun h => hxt h.symm)
    · refine ⟨t, ?_, ?_⟩
      · obtain ⟨⟨k, hk⟩, hfr⟩ := hi
        exact rootF_fupd_link_keep f hx hxt k i t hk hfr (fun h => hxt h.symm)
      · obtain ⟨⟨k, hk⟩, _⟩ := hj
        exact rootF_fupd_link_move f hx ht hxt k j hk

namespace AUnionFind

/-- Effect of the single linking CAS of union: lengths kept, invariant kept,
and the classes of the two roots merged, nothing else moved. -/
theorem link_step_spec {uf2 : AUF} {x t : Nat} (hinv2 : Inv uf2)
    (hx : parent uf2 x = x) (ht : parent uf2 t = t) (hxt : x ≠ t)
    (hxlt : x < uf2.length) (htlt : t < uf2.length) (e : Entry) (heid : e.id = t) :
    (uf2.set x e).length = uf2.length ∧
    Inv (uf2.set x e) ∧
    (∀ i j, SameSet (uf2.set x e) i j ↔
      (SameSet uf2 i j ∨ (RootP uf2 i x ∧ RootP uf2 j t) ∨
        (RootP uf2 i t ∧ RootP uf2 j x))) := by
  have hpar : parent (uf2.set x e) = fupd (parent uf2) x t := by
    rw [parent_set uf2 hxlt, heid]
  refine ⟨length_set uf2 x e, ?_, ?_⟩
  · apply inv_of_exists
    · intro j hj
      rw [length_set] at hj
      rw [length_set, hpar]
      unfold fupd
      by_cases hje : j = x
      · rw [if_pos hje]
        exact htlt
      · rw [if_neg hje]
        exact hinv2.parent_lt hj
    · intro j hj
      rw [length_set] at hj
      obtain ⟨s, hs⟩ := hinv2.exists_root hj
      unfold RootP
      rw [hpar]
      by_cases hsx : s = x
      · subst hsx
        obtain ⟨⟨k, hk⟩, _⟩ := hs
        exact ⟨t, rootF_fupd_link_move (parent uf2) hx ht hxt k j hk⟩
      · obtain ⟨⟨k, hk⟩, hfr⟩ := hs
        exact ⟨s, rootF_fupd_link_keep (parent uf2) hx hxt k j s hk hfr hsx⟩
  · intro i j
    unfold SameSet RootP
    rw [hpar]
    exact fupd_link_sameSetF (parent uf2) hx ht hxt i j

theorem merged_form_iff {uf uf2 : AUF} {a b ra rb : Nat}
    (hra : RootP uf a ra) (hrb : RootP uf b rb)
    (hiffP : ∀ i s, RootP uf2 i s ↔ RootP uf i s) (i j : Nat) :
    (SameSet uf2 i j ∨ (RootP uf2 i ra ∧ RootP uf2 j rb) ∨
      (RootP uf2 i rb ∧ RootP uf2 j ra)) ↔
    (SameSet uf i j ∨ (SameSet uf i a ∧ SameSet uf j b) ∨
      (SameSet uf i b ∧ SameSet uf j a)) := by
  have hiffS : SameSet uf2 i j ↔ SameSet uf i j := by
    unfold SameSet
    constructor
    · rintro ⟨r, h1, h2⟩
      exact ⟨r, (hiffP i r).mp h1, (hiffP j r).mp h2⟩
    · rintro ⟨r, h1, h2⟩
      exact ⟨r, (hiffP i r).mpr h1, (hiffP j r).mpr h2⟩
  rw [hiffS, hiffP i ra, hiffP j rb, hiffP i rb, hiffP j ra,
    ← sameSet_root_right hra i, ← sameSet_root_right hrb j,
    ← sameSet_root_right hrb i, ← sameSet_root_right hra j]

/-- Sequential behaviour of union on an invariant state with known roots:
it reports whether the two roots differed, keeps the invariant and the
length, leaves every class untouched when it returns false, and otherwise
merges exactly the classes of a and b. -/
theorem union_spec {uf : AUF} {a b ra rb : Nat} (hinv : Inv uf)
    (ha : a < uf.length) (hb : b < uf.length)
    (hra : RootP uf a ra) (hrb : RootP uf b rb) :
    ((union uf a b).1 = true ↔ ra ≠ rb) ∧
    (union uf a b).2.length = uf.length ∧
    Inv (union uf a b).2 ∧
    (ra = rb → ∀ i s, RootP (union uf a b).2 i s ↔ RootP uf i s) ∧
    (∀ i j, SameSet (union uf a b).2 i j ↔
      (SameSet uf i j ∨ (SameSet uf i a ∧ SameSet uf j b) ∨
        (SameSet uf i b ∧ SameSet uf j a))) := by
  obtain ⟨hp1, hp2, hp3, hp4, hp5, hp6, hp7⟩ := find_entry_spec hinv ha hra
  have hb1 : b < (find_entry uf a).2.length := by rw [hp3]; exact hb
  have hrb1 : RootP (find_entry uf a).2 b rb := (hp5 b rb).mpr hrb
  obtain ⟨hq1, hq2, hq3, hq4, hq5, hq6, hq7⟩ := find_entry_spec hp4 hb1 hrb1
  have hralt : ra < uf.length := hinv.root_lt ha hra
  have hrblt : rb < uf.length := hinv.root_lt hb hrb
  have hrootA1 : parent (find_entry uf a).2 ra = ra := by
    unfold parent
    rw [← hp1]
    exact hp2
  have hload2ra : load (find_entry (find_entry uf a).2 b).2 ra =
      load (find_entry uf a).2 ra := by
    by_contra hc
    exact (hq6 ra hc).2 hrootA1
  have hrootA2 : parent (find_entry (find_entry uf a).2 b).2 ra = ra := by
    unfold parent
    rw [hload2ra]
    exact hrootA1
  have hcasA : load (find_entry (find_entry uf a).2 b).2 ra = (find_entry uf a).1 := by
    rw [hload2ra, ← hp1]
  have hrootB2 : parent (find_entry (find_entry uf a).2 b).2 rb = rb := by
    unfold parent
    rw [← hq1]
    exact hq2
  have hcasB : load (find_entry (find_entry uf a).2 b).2 rb =
      (find_entry (find_entry uf a).2 b).1 := hq1.symm
  have hlen2 : (find_entry (find_entry uf a).2 b).2.length = uf.length := by
    rw [hq3, hp3]
  have hiffP : ∀ i s, RootP (find_entry (find_entry uf a).2 b).2 i s ↔ RootP uf i s :=
    fun i s => (hq5 i s).trans (hp5 i s)
  by_cases hrarb : ra = rb
  · have hval : union uf a b = (false, (find_entry (find_entry uf a).2 b).2) := by
      unfold union
      simp only [union_loop]
      rw [hp2, hq2, if_pos hrarb]
    rw [hval]
    refine ⟨⟨fun h => absurd h Bool.false_ne_true, fun h => absurd hrarb h⟩,
      hlen2, hq4, fun _ => hiffP, ?_⟩
    intro i j
    have hiffS : SameSet (find_entry (find_entry uf a).2 b).2 i j ↔ SameSet uf i j := by
      unfold SameSet
      constructor
      · rintro ⟨r, h1, h2⟩
        exact ⟨r, (hiffP i r).mp h1, (hiffP j r).mp h2⟩
      · rintro ⟨r, h1, h2⟩
        exact ⟨r, (hiffP i r).mpr h1, (hiffP j r).mpr h2⟩
    rw [hiffS]
    constructor
    · exact Or.inl
    · rintro (h | ⟨h1, h2⟩ | ⟨h1, h2⟩)
      · exact h
      · rw [sameSet_root_right hra i] at h1
        rw [sameSet_root_right hrb j] at h2
        exact ⟨ra, h1, by rw [hrarb]; exact h2⟩
      · rw [sameSet_root_right hrb i] at h1
        rw [sameSet_root_right hra j] at h2
        exact ⟨rb, h1, by rw [← hrarb]; exact h2⟩
  · have hxtBA : rb ≠ ra := fun h => hrarb h.symm
    have hrbfin : rb < (find_entry (find_entry uf a).2 b).2.length := by
      rw [hlen2]; exact hrblt
    have hrafin : ra < (find_entry (find_entry uf a).2 b).2.length := by
      rw [hlen2]; exact hralt
    by_cases hrk1 : (find_entry (find_entry uf a).2 b).1.rk < (find_entry uf a).1.rk
    · have hval : union uf a b = (true,
          ((find_entry (find_entry uf a).2 b).2).set rb (find_entry uf a).1) := by
        unfold union
        simp only [union_loop]
        rw [hp2, hq2, if_neg hrarb, if_pos hrk1, cas_success hcasB]
        rfl
      obtain ⟨hl1, hl2, hl3⟩ := link_step_spec hq4 hrootB2 hrootA2 hxtBA hrbfin hrafin
        (find_entry uf a).1 hp2
      rw [hval]
      refine ⟨⟨fun _ => hrarb, fun _ => rfl⟩, by rw [hl1, hlen2], hl2,
        fun h => absurd h hrarb, ?_⟩
      intro i j
      rw [hl3 i j, ← merged_form_iff hra hrb hiffP i j]
      tauto
    · by_cases hrk2 : (find_entry uf a).1.rk < (find_entry (find_entry uf a).2 b).1.rk
      · have hval : union uf a b = (true,
            ((find_entry (find_entry uf a).2 b).2).set ra
              (find_entry (find_entry uf a).2 b).1) := by
          unfold union
          simp only [union_loop]
          rw [hp2, hq2, if_neg hrarb, if_neg hrk1, if_pos hrk2, cas_success hcasA]
          rfl
        obtain ⟨hl1, hl2, hl3⟩ := link_step_spec hq4 hrootA2 hrootB2 hrarb hrafin hrbfin
          (find_entry (find_entry uf a).2 b).1 hq2
        rw [hval]
        refine ⟨⟨fun _ => hrarb, fun _ => rfl⟩, by rw [hl1, hlen2], hl2,
          fun h => absurd h hrarb, ?_⟩
        intro i j
        rw [hl3 i j, ← merged_form_iff hra hrb hiffP i j]
      · have hval : union uf a b = (true, increment_rank
            (((find_entry (find_entry uf a).2 b).2).set ra
              (find_entry (find_entry uf a).2 b).1)
            (find_entry (find_entry uf a).2 b).1) := by
          unfold union
          simp only [union_loop]
          rw [hp2, hq2, if_neg hrarb, if_neg hrk1, if_neg hrk2, cas_success hcasA]
          rfl
        obtain ⟨hl1, hl2, hl3⟩ := link_step_spec hq4 hrootA2 hrootB2 hrarb hrafin hrbfin
          (find_entry (find_entry uf a).2 b).1 hq2
        have hload3 : load (((find_entry (find_entry uf a).2 b).2).set ra
            (find_entry (find_entry uf a).2 b).1) rb =
            (find_entry (find_entry uf a).2 b).1 := by
          rw [load_set, if_neg (fun hc => hrarb hc.1)]
          exact hcasB
        have hrootB3 : (find_entry (find_entry uf a).2 b).1.id =
            parent (((find_entry (find_entry uf a).2 b).2).set ra
              (find_entry (find_entry uf a).2 b).1) rb := by
          unfold parent
          rw [hload3]
        have hinc : increment_rank
            (((find_entry (find_entry uf a).2 b).2).set ra
              (find_entry (find_entry uf a).2 b).1)
            (find_entry (find_entry uf a).2 b).1 =
            ((((find_entry (find_entry uf a).2 b).2).set ra
              (find_entry (find_entry uf a).2 b).1).set rb
              ⟨(find_entry (find_entry uf a).2 b).1.id,
                (find_entry (find_entry uf a).2 b).1.rk + 1⟩) := by
          unfold increment_rank
          rw [hq2, cas_success hload3]
        have hpar4 : parent ((((find_entry (find_entry uf a).2 b).2).set ra
            (find_entry (find_entry uf a).2 b).1).set rb
            ⟨(find_entry (find_entry uf a).2 b).1.id,
              (find_entry (find_entry uf a).2 b).1.rk + 1⟩) =
            parent (((find_entry (find_entry uf a).2 b).2).set ra
              (find_entry (find_entry uf a).2 b).1) :=
          parent_set_id _ _ hrootB3
        have hlen4 : ((((find_entry (find_entry uf a).2 b).2).set ra
            (find_entry (find_entry uf a).2 b).1).set rb
            ⟨(find_entry (find_entry uf a).2 b).1.id,
              (find_entry (find_entry uf a).2 b).1.rk + 1⟩).length =
            (((find_entry (find_entry uf a).2 b).2).set ra
              (find_entry (find_entry uf a).2 b).1).length :=
          length_set _ rb _
        rw [hval, hinc]
        refine ⟨⟨fun _ => hrarb, fun _ => rfl⟩,
          by rw [hlen4, hl1, hlen2],
          (inv_congr hpar4 hlen4).mpr hl2,
          fun h => absurd h hrarb, ?_⟩
        intro i j
        rw [sameSet_congr hpar4 i j, hl3 i j, ← merged_form_iff hra hrb hiffP i j]

/-- Sequential behaviour of equiv on an invariant state with known roots:
it reports whether the roots coincide and only compresses paths. -/
theorem equiv_spec {uf : AUF} {a b ra rb : Nat} (hinv : Inv uf)
    (ha : a < uf.length) (hb : b < uf.length)
    (hra : RootP uf a ra) (hrb : RootP uf b rb) :
    ((equiv uf a b).1 = true ↔ ra = rb) ∧
    (equiv uf a b).2.length = uf.length ∧
    Inv (equiv uf a b).2 ∧
    (∀ i s, RootP (equiv uf a b).2 i s ↔ RootP uf i s) := by
  obtain ⟨hp1, hp2, hp3, hp4, hp5, hp6, hp7⟩ := find_entry_spec hinv ha hra
  have hb1 : b < (find_entry uf a).2.length := by rw [hp3]; exact hb
  have hrb1 : RootP (find_entry uf a).2 b rb := (hp5 b rb).mpr hrb
  obtain ⟨hq1, hq2, hq3, hq4, hq5, hq6, hq7⟩ := find_entry_spec hp4 hb1 hrb1
  have hrootA1 : parent (find_entry uf a).2 ra = ra := by
    unfold parent
    rw [← hp1]
    exact hp2
  have hload2ra : load (find_entry (find_entry uf a).2 b).2 ra =
      load (find_entry uf a).2 ra := by
    by_contra hc
    exact (hq6 ra hc).2 hrootA1
  have hrootA2 : parent (find_entry (find_entry uf a).2 b).2 ra = ra := by
    unfold parent
    rw [hload2ra]
    exact hrootA1
  have hlen2 : (find_entry (find_entry uf a).2 b).2.length = uf.length := by
    rw [hq3, hp3]
  have hiffP : ∀ i s, RootP (find_entry (find_entry uf a).2 b).2 i s ↔ RootP uf i s :=
    fun i s => (hq5 i s).trans (hp5 i s)
  by_cases hrarb : ra = rb
  · have hval : equiv uf a b = (true, (find_entry (find_entry uf a).2 b).2) := by
      unfold equiv
      simp only [equiv_loop, find]
      rw [hp2, hq2, if_pos hrarb]
    rw [hval]
    exact ⟨⟨fun _ => hrarb, fun _ => rfl⟩, hlen2, hq4, hiffP⟩
  · have hrootA2' : (load (find_entry (find_entry uf a).2 b).2 ra).id = ra := hrootA2
    have hval : equiv uf a b = (false, (find_entry (find_entry uf a).2 b).2) := by
      unfold equiv
      simp only [equiv_loop, find]
      rw [hp2, hq2, if_neg hrarb, if_pos hrootA2']
    rw [hval]
    exact ⟨⟨fun h => absurd h Bool.false_ne_true, fun h => absurd h hrarb⟩,
      hlen2, hq4, hiffP⟩

theorem new_eq {n : Nat} {uf : AUF} (h : new n = some uf) :
    uf = (List.range n).map fun i => ⟨i, 0⟩ := by
  unfold new at h
  by_cases hn : n ≤ max_size
  · rw [if_pos hn] at h
    exact (Option.some.inj h).symm
  · rw [if_neg hn] at h
    cases h

theorem length_new {n : Nat} {uf : AUF} (h : new n = some uf) : uf.length = n := by
  rw [new_eq h, List.length_map, List.length_range]

theorem load_new {n : Nat} {uf : AUF} (h : new n = some uf) (i : Nat) :
    load uf i = ⟨i, 0⟩ := by
  rw [new_eq h]
  unfold load
  rw [List.get?_map]
  by_cases hi : i < n
  · rw [List.get?_range hi]
    rfl
  · rw [List.get?_eq_none.mpr (by rw [List.length_range]; omega)]
    rfl

theorem parent_new {n : Nat} {uf : AUF} (h : new n = some uf) (i : Nat) :
    parent uf i = i := by
  unfold parent
  rw [load_new h]

theorem inv_new {n : Nat} {uf : AUF} (h : new n = some uf) : Inv uf := by
  intro i hi
  refine ⟨?_, ?_⟩
  · rw [parent_new h i]
    exact hi
  · rw [Function.iterate_fixed (parent_new h i) uf.length, parent_new h i]

/-- Sequential behaviour of one index pass of force: lengths, invariant and
partition kept; afterwards the slot points directly at its root; slots that
already pointed at a root are untouched. -/
theorem force_loop_spec {uf : AUF} {i : Nat} (hinv : Inv uf) (hi : i < uf.length)
    (fuel : Nat) :
    (force_loop (fuel + 1) uf i).length = uf.length ∧
    Inv (force_loop (fuel + 1) uf i) ∧
    (∀ j s, RootP (force_loop (fuel + 1) uf i) j s ↔ RootP uf j s) ∧
    parent (force_loop (fuel + 1) uf i) (parent (force_loop (fuel + 1) uf i) i) =
      parent (force_loop (fuel + 1) uf i) i ∧
    (∀ j, parent uf (parent uf j) = parent uf j →
      parent (force_loop (fuel + 1) uf i) j = parent uf j) := by
  by_cases hroot : i = (load uf i).id
  · have hval : force_loop (fuel + 1) uf i = uf := by
      simp only [force_loop]
      rw [if_pos hroot]
    rw [hval]
    refine ⟨rfl, hinv, fun j s => Iff.rfl, ?_, fun j _ => rfl⟩
    have h2 : parent uf i = i := hroot.symm
    rw [h2]
    exact h2
  · have hfx : parent uf i ≠ i := fun h => hroot h.symm
    have hlt : (load uf i).id < uf.length := hinv.parent_lt hi
    obtain ⟨rp, hrp⟩ := hinv.exists_root hlt
    obtain ⟨hp1, hp2, hp3, hp4, hp5, hp6, hp7⟩ := find_entry_spec hinv hlt hrp
    have hchain : ∀ m, (parent uf)^[m] ((load uf i).id) ≠ i := by
      intro m hm
      obtain ⟨ri, hri⟩ := hinv.exists_root hi
      have hcyc : (parent uf)^[m + 1] i = i := by
        rw [Function.iterate_succ_apply]
        exact hm
      have hieq := rootF_no_cycle (parent uf) hri hcyc (Nat.succ_pos m)
      apply hfx
      rw [hieq]
      exact hri.2
    have hslots : load (find_entry uf (load uf i).id).2 i = load uf i := by
      by_contra hc
      obtain ⟨⟨m, hm⟩, _⟩ := hp6 i hc
      exact hchain m hm
    have hrootP1 : parent (find_entry uf (load uf i).id).2 rp = rp := by
      unfold parent
      rw [← hp1]
      exact hp2
    have hpi1 : parent (find_entry uf (load uf i).id).2 i = (load uf i).id := by
      unfold parent
      rw [hslots]
    by_cases heq : (load uf i).id = (find_entry uf (load uf i).id).1.id
    · have hval : force_loop (fuel + 1) uf i = (find_entry uf (load uf i).id).2 := by
        simp only [force_loop]
        rw [if_neg hroot, if_pos heq]
      rw [hval]
      refine ⟨hp3, hp4, hp5, ?_, hp7⟩
      rw [hpi1]
      have hre : (load uf i).id = rp := by rw [heq, hp2]
      rw [congrArg (parent (find_entry uf (load uf i).id).2) hre, hrootP1]
      exact hre.symm
    · have hcas : cas (find_entry uf (load uf i).id).2 i (load uf i)
          (find_entry uf (load uf i).id).1 =
          (true, (find_entry uf (load uf i).id).2.set i (find_entry uf (load uf i).id).1) :=
        cas_success hslots
      have hval : force_loop (fuel + 1) uf i =
          (find_entry uf (load uf i).id).2.set i (find_entry uf (load uf i).id).1 := by
        simp only [force_loop]
        rw [if_neg hroot, if_neg heq, hcas]
        rfl
      have hilen1 : i < (find_entry uf (load uf i).id).2.length := by
        rw [hp3]
        exact hi
      have hpar2 : parent ((find_entry uf (load uf i).id).2.set i
          (find_entry uf (load uf i).id).1) =
          fupd (parent (find_entry uf (load uf i).id).2) i rp := by
        rw [parent_set _ hilen1, hp2]
      have hfx1 : parent (find_entry uf (load uf i).id).2 i ≠ i := by
        rw [hpi1]
        exact fun h => hroot h.symm
      have hrpne : rp ≠ i := by
        intro h
        obtain ⟨⟨m, hm⟩, _⟩ := hrp
        rw [h] at hm
        exact hchain m hm
      have hanc : ∃ m, (parent (find_entry uf (load uf i).id).2)^[m] i = rp := by
        obtain ⟨⟨m, hm⟩, _⟩ := (hp5 ((load uf i).id) rp).mpr hrp
        refine ⟨m + 1, ?_⟩
        rw [Function.iterate_succ_apply, hpi1]
        exact hm
      have hiff2 : ∀ j s, RootF (fupd (parent (find_entry uf (load uf i).id).2) i rp) j s ↔
          RootF (parent (find_entry uf (load uf i).id).2) j s :=
        fun j s => rootF_fupd_ancestor _ hfx1 hrpne hanc j s
      have hlen2 : ((find_entry uf (load uf i).id).2.set i
          (find_entry uf (load uf i).id).1).length = uf.length := by
        rw [length_set, hp3]
      have hiffP2 : ∀ j s, RootP ((find_entry uf (load uf i).id).2.set i
          (find_entry uf (load uf i).id).1) j s ↔ RootP uf j s := by
        intro j s
        unfold RootP
        rw [hpar2]
        exact (hiff2 j s).trans (hp5 j s)
      have hrplt : rp < uf.length := hinv.root_lt hlt hrp
      have hinv2 : Inv ((find_entry uf (load uf i).id).2.set i
          (find_entry uf (load uf i).id).1) := by
        apply inv_of_exists
        · intro j hj
          rw [hlen2] at hj
          rw [hlen2, hpar2]
          unfold fupd
          by_cases hji : j = i
          · rw [if_pos hji]
            exact hrplt
          · rw [if_neg hji]
            have h5 := hp4.parent_lt (show j < (find_entry uf (load uf i).id).2.length by
              rw [hp3]; exact hj)
            rw [hp3] at h5
            exact h5
        · intro j hj
          rw [hlen2] at hj
          obtain ⟨s, hs⟩ := hinv.exists_root hj
          exact ⟨s, (hiffP2 j s).mpr hs⟩
      rw [hval]
      refine ⟨hlen2, hinv2, hiffP2, ?_, ?_⟩
      · rw [hpar2, fupd_self, fupd_ne _ _ _ hrpne]
        exact hrootP1
      · intro j hcomp
        have h1 := hp7 j hcomp
        by_cases hji : j = i
        · exfalso
          apply heq
          rw [hji] at hcomp
          have hrefl : RootF (parent uf) ((load uf i).id) ((load uf i).id) :=
            rootF_refl (parent uf) hcomp
          have hrpeq := rootF_unique (parent uf) hrp hrefl
          rw [hp2, hrpeq]
        · rw [hpar2, fupd_ne _ _ _ hji]
          exact h1

/-- Fold of force over a list of in-bounds indices. -/
theorem force_fold_spec :
    ∀ (l : List Nat) (uf : AUF), Inv uf → (∀ x ∈ l, x < uf.length) →
    (l.foldl (fun s i => force_loop (s.length + 1) s i) uf).length = uf.length ∧
    Inv (l.foldl (fun s i => force_loop (s.length + 1) s i) uf) ∧
    (∀ j s, RootP (l.foldl (fun s i => force_loop (s.length + 1) s i) uf) j s ↔
      RootP uf j s) ∧
    (∀ j, parent uf (parent uf j) = parent uf j →
      parent (l.foldl (fun s i => force_loop (s.length + 1) s i) uf) j = parent uf j) ∧
    (∀ j, j ∈ l →
      parent (l.foldl (fun s i => force_loop (s.length + 1) s i) uf)
        (parent (l.foldl (fun s i => force_loop (s.length + 1) s i) uf) j) =
      parent (l.foldl (fun s i => force_loop (s.length + 1) s i) uf) j) := by
  intro l
  induction l with
  | nil =>
    intro uf hinv _
    exact ⟨rfl, hinv, fun j s => Iff.rfl, fun j _ => rfl, fun j hj => absurd hj (by simp)⟩
  | cons i l ih =>
    intro uf hinv hmem
    rw [List.foldl_cons]
    have hi : i < uf.length := hmem i (by simp)
    obtain ⟨hf1, hf2, hf3, hf4, hf5⟩ := force_loop_spec hinv hi uf.length
    obtain ⟨hg1, hg2, hg3, hg4, hg5⟩ := ih (force_loop (uf.length + 1) uf i) hf2
      (fun x hx => by rw [hf1]; exact hmem x (by simp [hx]))
    refine ⟨by rw [hg1, hf1], hg2, fun j s => (hg3 j s).trans (hf3 j s), ?_, ?_⟩
    · intro j hcomp
      have h1 := hf5 j hcomp
      have hcomp1 : parent (force_loop (uf.length + 1) uf i)
          (parent (force_loop (uf.length + 1) uf i) j) =
          parent (force_loop (uf.length + 1) uf i) j := by
        rw [h1]
        have hcroot : parent uf (parent uf (parent uf j)) = parent uf (parent uf j) := by
          rw [hcomp]
          exact hcomp
        have h2 := hf5 (parent uf j) hcroot
        rw [h2]
        exact hcomp
      have h3 := hg4 j hcomp1
      rw [h3, h1]
    · intro j hj
      rcases List.mem_cons.mp hj with hji | hjl
      · subst hji
        have hroot1 : parent (force_loop (uf.length + 1) uf j)
            (parent (force_loop (uf.length + 1) uf j)
              (parent (force_loop (uf.length + 1) uf j) j)) =
            parent (force_loop (uf.length + 1) uf j)
              (parent (force_loop (uf.length + 1) uf j) j) := by
          rw [hf4]
          exact hf4
        have h2 := hg4 (parent (force_loop (uf.length + 1) uf j) j) hroot1
        have h3 := hg4 j hf4
        rw [h3, h2]
        exact hf4
      · exact hg5 j hjl

theorem force_spec {uf : AUF} (hinv : Inv uf) :
    (force uf).length = uf.length ∧
    Inv (force uf) ∧
    (∀ j s, RootP (force uf) j s ↔ RootP uf j s) ∧
    (∀ j, j < uf.length → parent (force uf) (parent (force uf) j) = parent (force uf) j) := by
  obtain ⟨h1, h2, h3, _, h5⟩ := force_fold_spec (List.range uf.length) uf hinv
    (fun x hx => List.mem_range.mp hx)
  exact ⟨h1, h2, h3, fun j hj => h5 j (List.mem_range.mpr hj)⟩

theorem force_loop_fixed {uf : AUF} {i : Nat}
    (h : parent uf (parent uf i) = parent uf i) (fuel : Nat) :
    force_loop (fuel + 1) uf i = uf := by
  simp only [force_loop]
  by_cases hroot : i = (load uf i).id
  · rw [if_pos hroot]
  · rw [if_neg hroot]
    have hfe : find_entry uf ((load uf i).id) = (load uf ((load uf i).id), uf) := by
      unfold find_entry
      exact find_entry_loop_exit uf ((load uf i).id) uf.length h.symm
    rw [hfe]
    rw [if_pos (show (load uf i).id = (load uf ((load uf i).id), uf).1.id from h.symm)]

/-- A fully compressed state is a fixed point of force. -/
theorem force_of_compressed {uf : AUF}
    (hcomp : ∀ j, j < uf.length → parent uf (parent uf j) = parent uf j) :
    force uf = uf := by
  unfold force
  have hgen : ∀ l : List Nat, (∀ x ∈ l, x < uf.length) →
      l.foldl (fun s i => force_loop (s.length + 1) s i) uf = uf := by
    intro l
    induction l with
    | nil => intro _; rfl
    | cons i l ihl =>
      intro hmem
      rw [List.foldl_cons, force_loop_fixed (hcomp i (hmem i (by simp))) uf.length]
      exact ihl (fun x hx => hmem x (by simp [hx]))
  exact hgen (List.range uf.length) (fun x hx => List.mem_range.mp hx)

/-- One public call of a sequential run, with its element arguments. -/
inductive Op where
  | op_union : Nat → Nat → Op
  | op_find : Nat → Op
  | op_equiv : Nat → Nat → Op
  | op_force : Op
  | op_to_vec : Op

/-- Effect of one call on the state. -/
def applyOp (uf : AUF) : Op → AUF
  | Op.op_union a b => (union uf a b).2
  | Op.op_find a => (find uf a).2
  | Op.op_equiv a b => (equiv uf a b).2
  | Op.op_force => force uf
  | Op.op_to_vec => (to_vec uf).2

/-- In-bounds side condition of one call (out-of-bounds arguments panic in
the source, so a run never performs them). -/
def opOK (n : Nat) : Op → Prop
  | Op.op_union a b => a < n ∧ b < n
  | Op.op_find a => a < n
  | Op.op_equiv a b => a < n ∧ b < n
  | Op.op_force => True
  | Op.op_to_vec => True

/-- Every single call keeps the length and the invariant, and never splits a
class: elements in the same set stay in the same set. -/
theorem applyOp_spec {uf : AUF} (hinv : Inv uf) :
    ∀ o : Op, opOK uf.length o →
    (applyOp uf o).length = uf.length ∧ Inv (applyOp uf o) ∧
    (∀ i j, SameSet uf i j → SameSet (applyOp uf o) i j) := by
  intro o hok
  cases o with
  | op_union a b =>
    obtain ⟨ha, hb⟩ := hok
    obtain ⟨ra, hra⟩ := hinv.exists_root ha
    obtain ⟨rb, hrb⟩ := hinv.exists_root hb
    obtain ⟨_, hu2, hu3, _, hu5⟩ := union_spec hinv ha hb hra hrb
    exact ⟨hu2, hu3, fun i j hs => (hu5 i j).mpr (Or.inl hs)⟩
  | op_find a =>
    obtain ⟨ra, hra⟩ := hinv.exists_root hok
    obtain ⟨_, _, hp3, hp4, hp5, _, _⟩ := find_entry_spec hinv hok hra
    refine ⟨hp3, hp4, ?_⟩
    rintro i j ⟨r, h1, h2⟩
    exact ⟨r, (hp5 i r).mpr h1, (hp5 j r).mpr h2⟩
  | op_equiv a b =>
    obtain ⟨ha, hb⟩ := hok
    obtain ⟨ra, hra⟩ := hinv.exists_root ha
    obtain ⟨rb, hrb⟩ := hinv.exists_root hb
    obtain ⟨_, he2, he3, he4⟩ := equiv_spec hinv ha hb hra hrb
    refine ⟨he2, he3, ?_⟩
    rintro i j ⟨r, h1, h2⟩
    exact ⟨r, (he4 i r).mpr h1, (he4 j r).mpr h2⟩
  | op_force =>
    obtain ⟨hf1, hf2, hf3, _⟩ := force_spec hinv
    refine ⟨hf1, hf2, ?_⟩
    rintro i j ⟨r, h1, h2⟩
    exact ⟨r, (hf3 i r).mpr h1, (hf3 j r).mpr h2⟩
  | op_to_vec =>
    obtain ⟨hf1, hf2, hf3, _⟩ := force_spec hinv
    refine ⟨hf1, hf2, ?_⟩
    rintro i j ⟨r, h1, h2⟩
    exact ⟨r, (hf3 i r).mpr h1, (hf3 j r).mpr h2⟩

/-- The invariant holds in every reachable state. -/
theorem reachable_inv {uf : AUF} (h : Reachable uf) : Inv uf := by
  induction h with
  | base n uf hnew => exact inv_new hnew
  | step_union a b _ ha hb ih =>
    obtain ⟨ra, hra⟩ := ih.exists_root ha
    obtain ⟨rb, hrb⟩ := ih.exists_root hb
    exact (union_spec ih ha hb hra hrb).2.2.1
  | step_find a _ ha ih =>
    obtain ⟨ra, hra⟩ := ih.exists_root ha
    exact (find_entry_spec ih ha hra).2.2.2.1
  | step_equiv a b _ ha hb ih =>
    obtain ⟨ra, hra⟩ := ih.exists_root ha
    obtain ⟨rb, hrb⟩ := ih.exists_root hb
    exact (equiv_spec ih ha hb hra hrb).2.2.1
  | step_force _ ih => exact (force_spec ih).2.1
  | step_to_vec _ ih => exact (force_spec ih).2.1

end AUnionFind

/-! Codec lemmas: pack and unpack are mutually inverse on in-range values. -/

theorem hIDMAXpow : ID_MAX = 2 ^ 58 := by decide

theorem hRKMAXpow : RK_MAX = 2 ^ 6 := by decide

theorem unpack_pack (id rk : Nat) (hid : id < ID_MAX) (hrk : rk < RK_MAX) :
    entryFromUsize (usizeFromEntry ⟨id, rk⟩) = ⟨id, rk⟩ := by
  have hRKM : RK_MASK = 2 ^ 6 - 1 := by decide
  have hIDM : ID_MASK = (2 ^ 64 - 1) ^^^ (2 ^ 6 - 1) := by decide
  have hIDS : ID_SHIFT = 6 := by decide
  have hRKS : RK_SHIFT = 0 := rfl
  rw [hIDMAXpow] at hid
  rw [hRKMAXpow] at hrk
  simp only [entryFromUsize, usizeFromEntry]
  rw [hIDS, hRKS, hRKM, hIDM, Nat.shiftLeft_zero, Nat.shiftRight_zero]
  have hidbit : ∀ i, 58 ≤ i → id.testBit i = false := fun i hi =>
    Nat.testBit_lt_two_pow (lt_of_lt_of_le hid (Nat.pow_le_pow_right (by omega) hi))
  have hrkbit : ∀ i, 6 ≤ i → rk.testBit i = false := fun i hi =>
    Nat.testBit_lt_two_pow (lt_of_lt_of_le hrk (Nat.pow_le_pow_right (by omega) hi))
  have h1 : (((id <<< 6 ||| rk) % 2 ^ 64) &&& ((2 ^ 64 - 1) ^^^ (2 ^ 6 - 1))) >>> 6 = id := by
    apply Nat.eq_of_testBit_eq
    intro i
    simp only [Nat.testBit_shiftRight, Nat.testBit_land, Nat.testBit_mod_two_pow,
      Nat.testBit_lor, Nat.testBit_shiftLeft, Nat.testBit_xor,
      Nat.testBit_two_pow_sub_one, Nat.add_sub_cancel_left]
    have hge : 6 ≤ 6 + i := by omega
    have hlt6 : ¬ (6 + i < 6) := by omega
    have hrk6 : rk.testBit (6 + i) = false := hrkbit (6 + i) hge
    by_cases h58 : i < 58
    · have h64 : 6 + i < 64 := by omega
      simp [hge, hlt6, hrk6, h64]
    · have h64 : ¬ (6 + i < 64) := by omega
      have hidi : id.testBit i = false := hidbit i (by omega)
      simp [hge, hlt6, hrk6, h64, hidi]
  have h2 : ((id <<< 6 ||| rk) % 2 ^ 64) &&& (2 ^ 6 - 1) = rk := by
    apply Nat.eq_of_testBit_eq
    intro i
    simp only [Nat.testBit_land, Nat.testBit_mod_two_pow, Nat.testBit_lor,
      Nat.testBit_shiftLeft, Nat.testBit_two_pow_sub_one]
    by_cases h6 : i < 6
    · have h64 : i < 64 := by omega
      have hge : ¬ (6 ≤ i) := by omega
      simp [h6, h64, hge]
    · have hrki : rk.testBit i = false := hrkbit i (by omega)
      simp [h6, hrki]
  rw [h1, h2]

theorem pack_unpack (w : Nat) (hw : w < 2 ^ 64) :
    usizeFromEntry (entryFromUsize w) = w := by
  have hRKM : RK_MASK = 2 ^ 6 - 1 := by decide
  have hIDM : ID_MASK = (2 ^ 64 - 1) ^^^ (2 ^ 6 - 1) := by decide
  have hIDS : ID_SHIFT = 6 := by decide
  have hRKS : RK_SHIFT = 0 := rfl
  simp only [entryFromUsize, usizeFromEntry]
  rw [hIDS, hRKS, hRKM, hIDM, Nat.shiftLeft_zero, Nat.shiftRight_zero]
  have hwbit : ∀ i, 64 ≤ i → w.testBit i = false := fun i hi =>
    Nat.testBit_lt_two_pow (lt_of_lt_of_le hw (Nat.pow_le_pow_right (by omega) hi))
  apply Nat.eq_of_testBit_eq
  intro i
  simp only [Nat.testBit_mod_two_pow, Nat.testBit_lor, Nat.testBit_shiftLeft,
    Nat.testBit_shiftRight, Nat.testBit_land, Nat.testBit_xor,
    Nat.testBit_two_pow_sub_one]
  by_cases h6 : i < 6
  · have h64 : i < 64 := by omega
    have hge : ¬ (6 ≤ i) := by omega
    simp [h6, h64, hge]
  · have hge : 6 ≤ i := by omega
    have h66 : 6 + (i - 6) = i := by omega
    rw [h66]
    by_cases h64 : i < 64
    · simp [h6, hge, h64]
    · have hwi : w.testBit i = false := hwbit i (by omega)
      simp [h6, hge, h64, hwi]

namespace AUnionFind

/-- The state new 6 constructs: six self-rooted rank-0 singletons. -/
def uf6 : AUF := [⟨0, 0⟩, ⟨1, 0⟩, ⟨2, 0⟩, ⟨3, 0⟩, ⟨4, 0⟩, ⟨5, 0⟩]

/-- The state new 3 constructs. -/
def uf3 : AUF := [⟨0, 0⟩, ⟨1, 0⟩, ⟨2, 0⟩]

theorem reachable_uf6 : Reachable uf6 := Reachable.base 6 uf6 (by decide)

theorem rootP_uf6_0 : RootP uf6 0 0 := ⟨⟨0, rfl⟩, rfl⟩

theorem rootP_uf6_1 : RootP uf6 1 1 := ⟨⟨0, rfl⟩, rfl⟩

theorem rootP_uf6_2 : RootP uf6 2 2 := ⟨⟨0, rfl⟩, rfl⟩

/-- C1: for every AUnionFind constructed by new and sequentially operated
(Reachable), and in-bounds elements a, b whose roots — the values the two
find calls return — are ra and rb: union(a, b) returns true iff ra and rb
differ (the elements were in different sets), a false return leaves the
partition unchanged, and after the union equiv(a, b) returns true. -/
theorem C1_union_first_merge {uf : AUF} {a b ra rb : Nat} (h : Reachable uf)
    (ha : a < uf.length) (hb : b < uf.length)
    (hra : RootP uf a ra) (hrb : RootP uf b rb) :
    (find uf a).1 = ra ∧
    (find (find uf a).2 b).1 = rb ∧
    ((union uf a b).1 = true ↔ ra ≠ rb) ∧
    ((union uf a b).1 = false →
      ∀ i j, SameSet (union uf a b).2 i j ↔ SameSet uf i j) ∧
    (equiv (union uf a b).2 a b).1 = true := by
  have hinv := reachable_inv h
  obtain ⟨hp1, hp2, hp3, hp4, hp5, hp6, hp7⟩ := find_entry_spec hinv ha hra
  have hb1 : b < (find_entry uf a).2.length := by rw [hp3]; exact hb
  have hrb1 : RootP (find_entry uf a).2 b rb := (hp5 b rb).mpr hrb
  obtain ⟨hq1, hq2, _, _, _, _, _⟩ := find_entry_spec hp4 hb1 hrb1
  obtain ⟨hu1, hu2, hu3, hu4, hu5⟩ := union_spec hinv ha hb hra hrb
  refine ⟨hp2, hq2, hu1, ?_, ?_⟩
  · intro hfalse i j
    have hrarb : ra = rb := by
      by_contra hc
      have ht := hu1.mpr hc
      rw [hfalse] at ht
      exact Bool.false_ne_true ht
    have hP := hu4 hrarb
    constructor
    · rintro ⟨r, h1, h2⟩
      exact ⟨r, (hP i r).mp h1, (hP j r).mp h2⟩
    · rintro ⟨r, h1, h2⟩
      exact ⟨r, (hP i r).mpr h1, (hP j r).mpr h2⟩
  · have ha2 : a < (union uf a b).2.length := by rw [hu2]; exact ha
    have hb2 : b < (union uf a b).2.length := by rw [hu2]; exact hb
    have hSS : SameSet (union uf a b).2 a b := by
      rw [hu5 a b]
      exact Or.inr (Or.inl ⟨⟨ra, hra, hra⟩, ⟨rb, hrb, hrb⟩⟩)
    obtain ⟨r, h1, h2⟩ := hSS
    obtain ⟨hg1, _, _, _⟩ := equiv_spec hu3 ha2 hb2 h1 h2
    exact hg1.mpr rfl

/-- Witness for C1 at the fresh six-element structure with a = 0, b = 1. -/
theorem C1_witness :
    Reachable uf6 ∧ 0 < uf6.length ∧ 1 < uf6.length ∧
    RootP uf6 0 0 ∧ RootP uf6 1 1 ∧
    ((find uf6 0).1 = 0 ∧
      (find (find uf6 0).2 1).1 = 1 ∧
      ((union uf6 0 1).1 = true ↔ (0 : Nat) ≠ 1) ∧
      ((union uf6 0 1).1 = false →
        ∀ i j, SameSet (union uf6 0 1).2 i j ↔ SameSet uf6 i j) ∧
      (equiv (union uf6 0 1).2 0 1).1 = true) :=
  ⟨reachable_uf6, by decide, by decide, rootP_uf6_0, rootP_uf6_1,
    C1_union_first_merge reachable_uf6 (by decide) (by decide) rootP_uf6_0 rootP_uf6_1⟩

/-- C2: the deterministic worked example: from new 6, union(0,1) then
to_vec gives [1,1,2,3,4,5]; a further union(2,3) gives [1,1,3,3,4,5]; a
further union(1,3) gives [3,3,3,3,4,5]; on the equal-rank tie of union(0,1)
the first argument's root 0 is linked under the second argument's root 1. -/
theorem C2_worked_example :
    new 6 = some uf6 ∧
    (load (union uf6 0 1).2 0).id = 1 ∧
    (to_vec (union uf6 0 1).2).1 = [1, 1, 2, 3, 4, 5] ∧
    (to_vec (union (to_vec (union uf6 0 1).2).2 2 3).2).1 = [1, 1, 3, 3, 4, 5] ∧
    (to_vec (union (to_vec (union (to_vec (union uf6 0 1).2).2 2 3).2).2 1 3).2).1 =
      [3, 3, 3, 3, 4, 5] := by decide

/-- C4: union monotonicity: once equiv(a, b) has returned true, after any
further sequence of in-bounds operations equiv(a, b) still returns true. -/
theorem C4_union_monotonicity {uf : AUF} {a b : Nat} (h : Reachable uf)
    (ha : a < uf.length) (hb : b < uf.length) (ops : List Op)
    (hok : ∀ o ∈ ops, opOK uf.length o)
    (htrue : (equiv uf a b).1 = true) :
    (equiv (ops.foldl applyOp (equiv uf a b).2) a b).1 = true := by
  have hinv := reachable_inv h
  obtain ⟨ra, hra⟩ := hinv.exists_root ha
  obtain ⟨rb, hrb⟩ := hinv.exists_root hb
  obtain ⟨he1, he2, he3, he4⟩ := equiv_spec hinv ha hb hra hrb
  have hrarb : ra = rb := he1.mp htrue
  subst hrarb
  have hs0 : SameSet (equiv uf a b).2 a b :=
    ⟨ra, (he4 a ra).mpr hra, (he4 b ra).mpr hrb⟩
  have hfold : ∀ (l : List Op) (s : AUF), Inv s → s.length = uf.length →
      (∀ o ∈ l, opOK uf.length o) → SameSet s a b →
      Inv (l.foldl applyOp s) ∧ (l.foldl applyOp s).length = uf.length ∧
      SameSet (l.foldl applyOp s) a b := by
    intro l
    induction l with
    | nil =>
      intro s h1 h2 _ h4
      exact ⟨h1, h2, h4⟩
    | cons o l ihl =>
      intro s h1 h2 h3 h4
      rw [List.foldl_cons]
      obtain ⟨ha1, ha2, ha3⟩ := applyOp_spec h1 o (by rw [h2]; exact h3 o (by simp))
      exact ihl (applyOp s o) ha2 (by rw [ha1, h2])
        (fun o2 ho2 => h3 o2 (by simp [ho2])) (ha3 a b h4)
  obtain ⟨hinvF, hlenF, hsF⟩ := hfold ops (equiv uf a b).2 he3 he2 hok hs0
  obtain ⟨rf, hrf1, hrf2⟩ := hsF
  have haF : a < (ops.foldl applyOp (equiv uf a b).2).length := by
    rw [hlenF]; exact ha
  have hbF : b < (ops.foldl applyOp (equiv uf a b).2).length := by
    rw [hlenF]; exact hb
  obtain ⟨hg1, _, _, _⟩ := equiv_spec hinvF haF hbF hrf1 hrf2
  exact hg1.mpr rfl

/-- Witness for C4 on the six-element structure: equiv(1, 1) is true and
stays true after a union(2, 3). -/
theorem C4_witness :
    Reachable uf6 ∧ 1 < uf6.length ∧ 1 < uf6.length ∧
    (∀ o ∈ [Op.op_union 2 3], opOK uf6.length o) ∧
    (equiv uf6 1 1).1 = true ∧
    (equiv (([Op.op_union 2 3]).foldl applyOp (equiv uf6 1 1).2) 1 1).1 = true :=
  ⟨reachable_uf6, by decide, by decide,
    (by
      intro o ho
      simp only [List.mem_singleton] at ho
      subst ho
      exact ⟨by decide, by decide⟩),
    by decide,
    C4_union_monotonicity reachable_uf6 (by decide) (by decide) [Op.op_union 2 3]
      (by
        intro o ho
        simp only [List.mem_singleton] at ho
        subst ho
        exact ⟨by decide, by decide⟩)
      (by decide)⟩

/-- C5: in every reachable state the parent graph has no cycle except root
self-loops, and find terminates on every in-bounds element: the while loop
exits on its own (any fuel of at least uf.length gives the same run) and the
returned id denotes a self-rooted entry of the resulting state. -/
theorem C5_no_cycles_find_terminates {uf : AUF} (h : Reachable uf) :
    (∀ i, i < uf.length → ∀ m, 0 < m → (parent uf)^[m] i = i → parent uf i = i) ∧
    (∀ e, e < uf.length → ∀ fuel, uf.length ≤ fuel →
      find_entry_loop fuel uf e (load uf e) = find_entry uf e ∧
      (find uf e).1 = (find_entry uf e).1.id ∧
      (load (find uf e).2 ((find uf e).1)).id = (find uf e).1) := by
  have hinv := reachable_inv h
  constructor
  · intro i hi m hm hcyc
    obtain ⟨r, hr⟩ := hinv.exists_root hi
    have hieq := rootF_no_cycle (parent uf) hr hcyc hm
    rw [hieq]
    exact hr.2
  · intro e he fuel hfuel
    obtain ⟨r, hr⟩ := hinv.exists_root he
    obtain ⟨hp1, hp2, _, _, _, _, _⟩ := find_entry_spec hinv he hr
    refine ⟨find_entry_loop_fuel hinv he hr hfuel, rfl, ?_⟩
    show (load (find_entry uf e).2 ((find_entry uf e).1.id)).id = (find_entry uf e).1.id
    rw [hp2, ← hp1]
    exact hp2

/-- Witness for C5 at the fresh six-element structure. -/
theorem C5_witness :
    Reachable uf6 ∧
    ((∀ i, i < uf6.length → ∀ m, 0 < m → (parent uf6)^[m] i = i → parent uf6 i = i) ∧
      (∀ e, e < uf6.length → ∀ fuel, uf6.length ≤ fuel →
        find_entry_loop fuel uf6 e (load uf6 e) = find_entry uf6 e ∧
        (find uf6 e).1 = (find_entry uf6 e).1.id ∧
        (load (find uf6 e).2 ((find uf6 e).1)).id = (find uf6 e).1)) :=
  ⟨reachable_uf6, C5_no_cycles_find_terminates reachable_uf6⟩

/-- C9: after force every in-bounds element's id points directly at its
set's root, force is idempotent (a second force changes no entry, so to_vec
is unchanged), and force never changes which elements are equivalent. -/
theorem C9_force_idempotent {uf : AUF} (h : Reachable uf) :
    (∀ i, i < uf.length → RootP (force uf) i (parent (force uf) i)) ∧
    force (force uf) = force uf ∧
    to_vec (force uf) = to_vec uf ∧
    (∀ i j, SameSet (force uf) i j ↔ SameSet uf i j) := by
  have hinv := reachable_inv h
  obtain ⟨hf1, hf2, hf3, hf4⟩ := force_spec hinv
  have hidem : force (force uf) = force uf :=
    force_of_compressed (fun j hj => hf4 j (by rw [← hf1]; exact hj))
  refine ⟨?_, hidem, ?_, ?_⟩
  · intro i hi
    refine ⟨⟨1, ?_⟩, hf4 i hi⟩
    rw [Function.iterate_one]
  · unfold to_vec
    rw [hidem]
  · intro i j
    unfold SameSet
    constructor
    · rintro ⟨r, h1, h2⟩
      exact ⟨r, (hf3 i r).mp h1, (hf3 j r).mp h2⟩
    · rintro ⟨r, h1, h2⟩
      exact ⟨r, (hf3 i r).mpr h1, (hf3 j r).mpr h2⟩

/-- Witness for C9 at the fresh six-element structure. -/
theorem C9_witness :
    Reachable uf6 ∧
    ((∀ i, i < uf6.length → RootP (force uf6) i (parent (force uf6) i)) ∧
      force (force uf6) = force uf6 ∧
      to_vec (force uf6) = to_vec uf6 ∧
      (∀ i j, SameSet (force uf6) i j ↔ SameSet uf6 i j)) :=
  ⟨reachable_uf6, C9_force_idempotent reachable_uf6⟩

/-- C10: on any reachable state, equiv is an equivalence relation under
sequential execution: equiv(a, a) is true; equiv(b, a) right after
equiv(a, b) returns the same value; and if equiv(a, b) and then equiv(b, c)
both return true, the following equiv(a, c) returns true. -/
theorem C10_equiv_equivalence {uf : AUF} {a b c : Nat} (h : Reachable uf)
    (ha : a < uf.length) (hb : b < uf.length) (hc : c < uf.length) :
    (equiv uf a a).1 = true ∧
    (equiv (equiv uf a b).2 b a).1 = (equiv uf a b).1 ∧
    ((equiv uf a b).1 = true → (equiv (equiv uf a b).2 b c).1 = true →
      (equiv (equiv (equiv uf a b).2 b c).2 a c).1 = true) := by
  have hinv := reachable_inv h
  obtain ⟨ra, hra⟩ := hinv.exists_root ha
  obtain ⟨rb, hrb⟩ := hinv.exists_root hb
  obtain ⟨rc, hrc⟩ := hinv.exists_root hc
  obtain ⟨he1, he2, he3, he4⟩ := equiv_spec hinv ha hb hra hrb
  have ha1 : a < (equiv uf a b).2.length := by rw [he2]; exact ha
  have hb1 : b < (equiv uf a b).2.length := by rw [he2]; exact hb
  have hc1 : c < (equiv uf a b).2.length := by rw [he2]; exact hc
  have hra1 : RootP (equiv uf a b).2 a ra := (he4 a ra).mpr hra
  have hrb1 : RootP (equiv uf a b).2 b rb := (he4 b rb).mpr hrb
  have hrc1 : RootP (equiv uf a b).2 c rc := (he4 c rc).mpr hrc
  refine ⟨?_, ?_, ?_⟩
  · obtain ⟨hg1, _, _, _⟩ := equiv_spec hinv ha ha hra hra
    exact hg1.mpr rfl
  · obtain ⟨hg1, _, _, _⟩ := equiv_spec he3 hb1 ha1 hrb1 hra1
    by_cases hd : ra = rb
    · rw [he1.mpr hd, hg1.mpr hd.symm]
    · have h1 : (equiv uf a b).1 = false := by
        cases hv : (equiv uf a b).1 with
        | false => rfl
        | true => exact absurd (he1.mp hv) hd
      have h2 : (equiv (equiv uf a b).2 b a).1 = false := by
        cases hv : (equiv (equiv uf a b).2 b a).1 with
        | false => rfl
        | true => exact absurd (hg1.mp hv).symm hd
      rw [h1, h2]
  · intro h1 h2
    have hd1 : ra = rb := he1.mp h1
    obtain ⟨hg1, hg2, hg3, hg4⟩ := equiv_spec he3 hb1 hc1 hrb1 hrc1
    have hd2 : rb = rc := hg1.mp h2
    have ha2 : a < (equiv (equiv uf a b).2 b c).2.length := by
      rw [hg2, he2]; exact ha
    have hc2 : c < (equiv (equiv uf a b).2 b c).2.length := by
      rw [hg2, he2]; exact hc
    have hra2 : RootP (equiv (equiv uf a b).2 b c).2 a ra := (hg4 a ra).mpr hra1
    have hrc2 : RootP (equiv (equiv uf a b).2 b c).2 c rc := (hg4 c rc).mpr hrc1
    obtain ⟨hh1, _, _, _⟩ := equiv_spec hg3 ha2 hc2 hra2 hrc2
    exact hh1.mpr (hd1.trans hd2)

/-- Witness for C10 at the fresh six-element structure with 0, 1, 2. -/
theorem C10_witness :
    Reachable uf6 ∧ 0 < uf6.length ∧ 1 < uf6.length ∧ 2 < uf6.length ∧
    ((equiv uf6 0 0).1 = true ∧
      (equiv (equiv uf6 0 1).2 1 0).1 = (equiv uf6 0 1).1 ∧
      ((equiv uf6 0 1).1 = true → (equiv (equiv uf6 0 1).2 1 2).1 = true →
        (equiv (equiv (equiv uf6 0 1).2 1 2).2 0 2).1 = true)) :=
  ⟨reachable_uf6, by decide, by decide, by decide,
    C10_equiv_equivalence reachable_uf6 (by decide) (by decide) (by decide)⟩

/-- C8: new succeeds exactly for sizes up to max_size, which is 2 to the 58
on the modeled 64-bit platform; the capacity check exists only in new. -/
theorem C8_capacity_boundary (size : Nat) :
    ((new size).isSome ↔ size ≤ max_size) ∧ max_size = 2 ^ 58 := by
  constructor
  · unfold new
    by_cases h : size ≤ max_size
    · rw [if_pos h]
      simp [h]
    · rw [if_neg h]
      simp [h]
  · exact hIDMAXpow

end AUnionFind

/-- C6: pack and unpack are mutually inverse: unpacking the packed form of
any in-range (id, rank) pair gives the pair back, packing the unpacked form
of any 64-bit word gives the word back, and the split is 58 id bits and 6
rank bits on the modeled 64-bit platform. -/
theorem C6_codec_inverse :
    (∀ id rk : Nat, id < ID_MAX → rk < RK_MAX →
      entryFromUsize (usizeFromEntry ⟨id, rk⟩) = ⟨id, rk⟩) ∧
    (∀ w : Nat, w < 2 ^ 64 → usizeFromEntry (entryFromUsize w) = w) ∧
    ID_BITS = 58 ∧ RK_BITS = 6 ∧ ID_MAX = 2 ^ ID_BITS ∧ RK_MAX = 2 ^ RK_BITS :=
  ⟨unpack_pack, pack_unpack, rfl, by decide, by decide, by decide⟩

/-- Witness for C6 at id 5, rank 3, and word 12345. -/
theorem C6_witness :
    (5 < ID_MAX ∧ 3 < RK_MAX ∧ entryFromUsize (usizeFromEntry ⟨5, 3⟩) = ⟨5, 3⟩) ∧
    (12345 < 2 ^ 64 ∧ usizeFromEntry (entryFromUsize 12345) = 12345) :=
  ⟨⟨by decide, by decide, C6_codec_inverse.1 5 3 (by decide) (by decide)⟩,
    ⟨by decide, C6_codec_inverse.2.1 12345 (by decide)⟩⟩

namespace AUnionFind

/-- C7 counterexample: from new 3, union(0, 1) makes 1 a root of rank 1 and
leaves slot 2 with rank 0; the next union(2, 1) links losing root 2 (rank 0)
under root 1 (rank 1) with one CAS, after which slot 2 stores id 1 and rank
1 — the winning root's rank — so the losing root's old rank 0 is not kept. -/
theorem C7_counterexample :
    (union uf3 0 1).1 = true ∧
    (load (union uf3 0 1).2 2).rk = 0 ∧
    (union (union uf3 0 1).2 2 1).1 = true ∧
    (load (union (union uf3 0 1).2 2 1).2 2).id = 1 ∧
    (load (union (union uf3 0 1).2 2 1).2 2).rk = 1 ∧
    ¬ ((load (union (union uf3 0 1).2 2 1).2 2).rk =
        (load (union uf3 0 1).2 2).rk) := by decide

/-- C7 amended: the linking CAS writes the winning root's whole found entry
into the losing root's slot: the id becomes the new parent and the now-inert
rank slot receives the winning root's rank; the losing root's old rank value
is preserved only on an equal-rank tie, where the two ranks coincide. -/
theorem C7_link_writes_winner {uf : AUF} {a b : Nat} (h : Reachable uf)
    (ha : a < uf.length) (hb : b < uf.length)
    (hne : (find_entry uf a).1.id ≠ (find_entry (find_entry uf a).2 b).1.id) :
    ((find_entry (find_entry uf a).2 b).1.rk < (find_entry uf a).1.rk →
      load (union uf a b).2 ((find_entry (find_entry uf a).2 b).1.id) =
        (find_entry uf a).1) ∧
    ((find_entry uf a).1.rk < (find_entry (find_entry uf a).2 b).1.rk →
      load (union uf a b).2 ((find_entry uf a).1.id) =
        (find_entry (find_entry uf a).2 b).1) ∧
    ((find_entry uf a).1.rk = (find_entry (find_entry uf a).2 b).1.rk →
      load (union uf a b).2 ((find_entry uf a).1.id) =
        (find_entry (find_entry uf a).2 b).1) := by
  have hinv := reachable_inv h
  obtain ⟨ra, hra⟩ := hinv.exists_root ha
  obtain ⟨rb, hrb⟩ := hinv.exists_root hb
  obtain ⟨hp1, hp2, hp3, hp4, hp5, hp6, hp7⟩ := find_entry_spec hinv ha hra
  have hb1 : b < (find_entry uf a).2.length := by rw [hp3]; exact hb
  have hrb1 : RootP (find_entry uf a).2 b rb := (hp5 b rb).mpr hrb
  obtain ⟨hq1, hq2, hq3, hq4, hq5, hq6, hq7⟩ := find_entry_spec hp4 hb1 hrb1
  have hrarb : ¬ ra = rb := by
    intro hc
    apply hne
    rw [hp2, hq2, hc]
  have hralt : ra < uf.length := hinv.root_lt ha hra
  have hrblt : rb < uf.length := hinv.root_lt hb hrb
  have hrootA1 : parent (find_entry uf a).2 ra = ra := by
    unfold parent
    rw [← hp1]
    exact hp2
  have hload2ra : load (find_entry (find_entry uf a).2 b).2 ra =
      load (find_entry uf a).2 ra := by
    by_contra hc
    exact (hq6 ra hc).2 hrootA1
  have hcasA : load (find_entry (find_entry uf a).2 b).2 ra = (find_entry uf a).1 := by
    rw [hload2ra, ← hp1]
  have hcasB : load (find_entry (find_entry uf a).2 b).2 rb =
      (find_entry (find_entry uf a).2 b).1 := hq1.symm
  have hlen2 : (find_entry (find_entry uf a).2 b).2.length = uf.length := by
    rw [hq3, hp3]
  refine ⟨?_, ?_, ?_⟩
  · intro hrk1
    have hval : union uf a b = (true,
        ((find_entry (find_entry uf a).2 b).2).set rb (find_entry uf a).1) := by
      unfold union
      simp only [union_loop]
      rw [hp2, hq2, if_neg hrarb, if_pos hrk1, cas_success hcasB]
      rfl
    rw [hval, hq2]
    show load (((find_entry (find_entry uf a).2 b).2).set rb (find_entry uf a).1) rb =
      (find_entry uf a).1
    rw [load_set, if_pos ⟨rfl, by rw [hlen2]; exact hrblt⟩]
  · intro hrk2
    have hnk1 : ¬ (find_entry (find_entry uf a).2 b).1.rk < (find_entry uf a).1.rk := by
      omega
    have hval : union uf a b = (true,
        ((find_entry (find_entry uf a).2 b).2).set ra
          (find_entry (find_entry uf a).2 b).1) := by
      unfold union
      simp only [union_loop]
      rw [hp2, hq2, if_neg hrarb, if_neg hnk1, if_pos hrk2, cas_success hcasA]
      rfl
    rw [hval, hp2]
    show load (((find_entry (find_entry uf a).2 b).2).set ra
        (find_entry (find_entry uf a).2 b).1) ra =
      (find_entry (find_entry uf a).2 b).1
    rw [load_set, if_pos ⟨rfl, by rw [hlen2]; exact hralt⟩]
  · intro hrkeq
    have hnk1 : ¬ (find_entry (find_entry uf a).2 b).1.rk < (find_entry uf a).1.rk := by
      omega
    have hnk2 : ¬ (find_entry uf a).1.rk < (find_entry (find_entry uf a).2 b).1.rk := by
      omega
    have hval : union uf a b = (true, increment_rank
        (((find_entry (find_entry uf a).2 b).2).set ra
          (find_entry (find_entry uf a).2 b).1)
        (find_entry (find_entry uf a).2 b).1) := by
      unfold union
      simp only [union_loop]
      rw [hp2, hq2, if_neg hrarb, if_neg hnk1, if_neg hnk2, cas_success hcasA]
      rfl
    have hload3 : load (((find_entry (find_entry uf a).2 b).2).set ra
        (find_entry (find_entry uf a).2 b).1) rb =
        (find_entry (find_entry uf a).2 b).1 := by
      rw [load_set, if_neg (fun hc => hrarb hc.1)]
      exact hcasB
    have hinc : increment_rank
        (((find_entry (find_entry uf a).2 b).2).set ra
          (find_entry (find_entry uf a).2 b).1)
        (find_entry (find_entry uf a).2 b).1 =
        ((((find_entry (find_entry uf a).2 b).2).set ra
          (find_entry (find_entry uf a).2 b).1).set rb
          ⟨(find_entry (find_entry uf a).2 b).1.id,
            (find_entry (find_entry uf a).2 b).1.rk + 1⟩) := by
      unfold increment_rank
      rw [hq2, cas_success hload3]
    rw [hval, hinc, hp2]
    show load ((((find_entry (find_entry uf a).2 b).2).set ra
        (find_entry (find_entry uf a).2 b).1).set rb
        ⟨(find_entry (find_entry uf a).2 b).1.id,
          (find_entry (find_entry uf a).2 b).1.rk + 1⟩) ra =
      (find_entry (find_entry uf a).2 b).1
    rw [load_set, if_neg (fun hc => hrarb hc.1.symm)]
    rw [load_set, if_pos ⟨rfl, by rw [hlen2]; exact hralt⟩]

/-- Witness for C7 amended: the scenario of the counterexample, where root 1
of rank 1 wins over root 2 of rank 0. -/
theorem C7_witness :
    Reachable (union uf3 0 1).2 ∧
    2 < (union uf3 0 1).2.length ∧ 1 < (union uf3 0 1).2.length ∧
    (find_entry (union uf3 0 1).2 2).1.id ≠
      (find_entry (find_entry (union uf3 0 1).2 2).2 1).1.id ∧
    (((find_entry (find_entry (union uf3 0 1).2 2).2 1).1.rk <
        (find_entry (union uf3 0 1).2 2).1.rk →
      load (union (union uf3 0 1).2 2 1).2
          ((find_entry (find_entry (union uf3 0 1).2 2).2 1).1.id) =
        (find_entry (union uf3 0 1).2 2).1) ∧
    ((find_entry (union uf3 0 1).2 2).1.rk <
        (find_entry (find_entry (union uf3 0 1).2 2).2 1).1.rk →
      load (union (union uf3 0 1).2 2 1).2
          ((find_entry (union uf3 0 1).2 2).1.id) =
        (find_entry (find_entry (union uf3 0 1).2 2).2 1).1) ∧
    ((find_entry (union uf3 0 1).2 2).1.rk =
        (find_entry (find_entry (union uf3 0 1).2 2).2 1).1.rk →
      load (union (union uf3 0 1).2 2 1).2
          ((find_entry (union uf3 0 1).2 2).1.id) =
        (find_entry (find_entry (union uf3 0 1).2 2).2 1).1)) :=
  ⟨Reachable.step_union 0 1 (Reachable.base 3 uf3 (by decide)) (by decide) (by decide),
    by decide, by decide, by decide,
    C7_link_writes_winner
      (Reachable.step_union 0 1 (Reachable.base 3 uf3 (by decide)) (by decide) (by decide))
      (by decide) (by decide) (by decide)⟩

end AUnionFind
